import Mathlib

/-!
Verification of the byte-packed Fenwick tree (`ByteFenwickTree` in
include/fenwick/byte.hpp) and the `LineRankSelect` rank/select layer built on
top of it.

The embedding models the C++ byte buffer as a function `Nat → Nat` mapping a
byte offset to the byte stored there (always `< 256`).  Unaligned 64-bit
loads/stores are little-endian digit sums over 8 consecutive bytes, exactly as
on the x86 targets the code is written for.  All machine arithmetic is modelled
on `Nat` with explicit `% 2^64` where wrap-around matters.

The bit-twiddling primitives (`popcount`, `find_first_set`, `mask_first_set`,
`mask_last_set`, `find_last_set`, `select64`, `compact_bitmask`) live in
common.hpp, which is not part of the sources; they are modelled from the
capabilities listed in §6 of the specification.
-/

namespace dyn

/-- Modelled from the spec: fuel-driven core of `popcount` (number of set bits
of a 64-bit word, §6).  Fuel `n` is always enough for argument `n`. -/
def pcF : Nat → Nat → Nat
  | 0, _ => 0
  | f + 1, n => if n = 0 then 0 else n % 2 + pcF f (n / 2)

/-- Modelled from the spec: `popcount` (§6), the number of set bits. -/
def popcount (n : Nat) : Nat := pcF n n

/-- Modelled from the spec: fuel-driven core of the count-trailing-zeros
primitive (`ctz`, §6). -/
def ctzF : Nat → Nat → Nat
  | 0, _ => 0
  | f + 1, n => if n % 2 = 1 ∨ n = 0 then 0 else ctzF f (n / 2) + 1

/-- Modelled from the spec: `ctz`, the number of trailing zero bits (§6). -/
def ctz (n : Nat) : Nat := ctzF n n

/-- Modelled from the spec: `find_first_set`, a.k.a. `ctz + 1` on nonzero
input (§6 describes `ctz` as find-first-set − 1). -/
def find_first_set (n : Nat) : Nat := if n = 0 then 0 else ctz n + 1

/-- Modelled from the spec: `lowest_set_bit(x) = x & -x` (§6), called
`mask_first_set` by the tree code. -/
def mask_first_set (n : Nat) : Nat := if n = 0 then 0 else 2 ^ ctz n

/-- Fuel-driven base-2 logarithm used to model the highest-set-bit helpers. -/
def lgF : Nat → Nat → Nat
  | 0, _ => 0
  | f + 1, n => if n ≤ 1 then 0 else lgF f (n / 2) + 1

/-- Floor base-2 logarithm (`lg 0 = 0`). -/
def lg (n : Nat) : Nat := lgF n n

/-- Modelled from the spec: `mask_last_set` isolates the highest set bit
(§6). -/
def mask_last_set (n : Nat) : Nat := if n = 0 then 0 else 2 ^ lg n

/-- Modelled from the spec: `find_last_set`, the 1-based position of the
highest set bit, i.e. the bit length (used for the level count). -/
def find_last_set (n : Nat) : Nat := if n = 0 then 0 else lg n + 1

/-- Modelled from the spec: `select_within_u64(word, k)` returns the 0-based
position of the (k+1)-th set bit of `word` (§6); the position list default is
64 when there are not enough set bits (never hit by guarded callers). -/
def select64 (w r : Nat) : Nat :=
  ((List.range 64).filter (fun i => w / 2 ^ i % 2 = 1)).getD r 64

/-- Modelled from the spec: `compact_bitmask(n, off)`, a mask of `n` set bits
starting at bit `off` (used by `rank` as `compact_bitmask(pos % 64, 0)`). -/
def compact_bitmask (n off : Nat) : Nat := (2 ^ n - 1) * 2 ^ off

/-- The modulus of 64-bit machine arithmetic. -/
def U64 : Nat := 2 ^ 64

/-- Bitwise complement of a value inside a 64-bit word (C `~x` on uint64). -/
def not64 (x : Nat) : Nat := (U64 - 1) ^^^ x

/-- 64-bit unsigned subtraction `a - b` (two's-complement wrap-around). -/
def u64sub (a b : Nat) : Nat := (U64 + a - b % U64) % U64

/-- 64-bit unsigned decrement, `n - 1` as a `size_t` (wraps at `n = 0`). -/
def sub1_64 (n : Nat) : Nat := (n + (U64 - 1)) % U64

/-- Adding a signed 64-bit increment to an unsigned 64-bit word
(`*compact_element += inc` in `ByteFenwickTree::set`). -/
def u64addInt (w : Nat) (inc : Int) : Nat := (((w : Int) + inc) % (U64 : Int)).toNat

/-- Little-endian digit sum: the number whose base-256 digits are
`g 0, g 1, …, g (n-1)`. -/
def dsum (g : Nat → Nat) : Nat → Nat
  | 0 => 0
  | n + 1 => g 0 + 256 * dsum (fun j => g (j + 1)) n

/-- An unaligned 64-bit little-endian load at byte offset `p`
(`*reinterpret_cast<auint64_t*>(&tree[p])`). -/
def load64 (m : Nat → Nat) (p : Nat) : Nat := dsum (fun j => m (p + j)) 8

/-- An unaligned 64-bit little-endian store of `w` at byte offset `p`. -/
def store64 (m : Nat → Nat) (p w : Nat) : Nat → Nat := fun q =>
  if p ≤ q ∧ q < p + 8 then w / 256 ^ (q - p) % 256 else m q

/-- The `BYTE_MASK` lookup table of byte.hpp (masks of 0..8 low bytes). -/
def BYTE_MASK : List Nat :=
  [0, 0xFF, 0xFFFF, 0xFFFFFF, 0xFFFFFFFF, 0xFFFFFFFFFF, 0xFFFFFFFFFFFF,
   0xFFFFFFFFFFFFFF, 0xFFFFFFFFFFFFFFFF]

/-- Read of `BYTE_MASK[k]`; the C++ read is in bounds only for `k ≤ 8` and
every theorem below carries hypotheses keeping it there. -/
def byteMask (k : Nat) : Nat := BYTE_MASK.getD k 0

/-- Every byte of the buffer is an actual byte value. -/
def bytesLt (m : Nat → Nat) : Prop := ∀ q, m q < 256

/-- The two read-modify-write statements of the constructor,
`*curr &= ~BYTE_MASK[sz]; *curr |= value & BYTE_MASK[sz]`, each modelled as an
unaligned 64-bit load followed by an unaligned 64-bit store. -/
def writeNode (m : Nat → Nat) (p sz val : Nat) : Nat → Nat :=
  let m1 := store64 m p (load64 m p &&& not64 (byteMask sz))
  store64 m1 p (load64 m1 p ||| (val &&& byteMask sz))

/-- The statement `*compact_element += inc` of `ByteFenwickTree::set`: a
64-bit read-modify-write add of a signed increment at byte offset `p`. -/
def addAt (m : Nat → Nat) (p : Nat) (inc : Int) : Nat → Nat :=
  store64 m p (u64addInt (load64 m p) inc)

end dyn

namespace dyn

/-! ### Characterisations of the fuel-driven helpers -/

theorem pcF_congr : ∀ {f g n : Nat}, n ≤ f → n ≤ g → pcF f n = pcF g n := by
  intro f
  induction f using Nat.strong_induction_on with
  | _ f ih =>
    intro g n hf hg
    match f, g with
    | 0, g => interval_cases n; cases g <;> simp [pcF]
    | f + 1, 0 => interval_cases n; simp [pcF]
    | f + 1, g + 1 =>
      simp only [pcF]
      by_cases h0 : n = 0
      · simp [h0]
      · simp only [h0, if_false]
        have hlt : n / 2 < n := Nat.div_lt_self (Nat.pos_of_ne_zero h0) (by omega)
        have := ih f (by omega) (g := g) (n := n / 2) (by omega) (by omega)
        omega

theorem popcount_zero : popcount 0 = 0 := rfl

theorem popcount_step (n : Nat) (h : n ≠ 0) :
    popcount n = n % 2 + popcount (n / 2) := by
  unfold popcount
  match n, h with
  | n + 1, _ =>
    simp only [pcF]
    simp only [Nat.succ_ne_zero, if_false]
    have : (n + 1) / 2 ≤ n := by omega
    exact congrArg (fun z => (n + 1) % 2 + z) (pcF_congr this (Nat.le_refl _))

theorem ctzF_congr : ∀ {f g n : Nat}, n ≤ f → n ≤ g → ctzF f n = ctzF g n := by
  intro f
  induction f using Nat.strong_induction_on with
  | _ f ih =>
    intro g n hf hg
    match f, g with
    | 0, g => interval_cases n; cases g <;> simp [ctzF]
    | f + 1, 0 => interval_cases n; simp [ctzF]
    | f + 1, g + 1 =>
      simp only [ctzF]
      by_cases h0 : n % 2 = 1 ∨ n = 0
      · simp [h0]
      · simp only [h0, if_false]
        have hlt : n / 2 < n := Nat.div_lt_self (by omega) (by omega)
        have := ih f (by omega) (g := g) (n := n / 2) (by omega) (by omega)
        omega

theorem ctz_odd (n : Nat) (h : n % 2 = 1) : ctz n = 0 := by
  unfold ctz
  match n, h with
  | n + 1, h => simp [ctzF, h]

theorem ctz_even (n : Nat) (h1 : n ≠ 0) (h2 : n % 2 = 0) :
    ctz n = ctz (n / 2) + 1 := by
  unfold ctz
  match n, h1 with
  | n + 1, _ =>
    simp only [ctzF]
    have hne : ¬((n + 1) % 2 = 1 ∨ n + 1 = 0) := by omega
    simp only [hne, if_false]
    have : (n + 1) / 2 ≤ n := by omega
    exact congrArg (· + 1) (ctzF_congr this (Nat.le_refl _))

theorem ctz_odd_mul_pow (m t : Nat) : ctz ((2 * m + 1) * 2 ^ t) = t := by
  induction t with
  | zero =>
    simpa using ctz_odd (2 * m + 1) (by omega)
  | succ t ih =>
    have hpow : (0:Nat) < 2 ^ t := Nat.pos_pow_of_pos t (by omega)
    have hne : (2 * m + 1) * 2 ^ (t + 1) ≠ 0 := by positivity
    have heven : (2 * m + 1) * 2 ^ (t + 1) % 2 = 0 := by
      rw [pow_succ, ← Nat.mul_assoc]
      exact Nat.mul_mod_left _ 2
    rw [ctz_even _ hne heven]
    have : (2 * m + 1) * 2 ^ (t + 1) / 2 = (2 * m + 1) * 2 ^ t := by
      rw [pow_succ, ← Nat.mul_assoc]
      exact Nat.mul_div_cancel _ (by omega)
    rw [this, ih]

theorem lgF_congr : ∀ {f g n : Nat}, n ≤ f → n ≤ g → lgF f n = lgF g n := by
  intro f
  induction f using Nat.strong_induction_on with
  | _ f ih =>
    intro g n hf hg
    match f, g with
    | 0, g => interval_cases n; cases g <;> simp [lgF]
    | f + 1, 0 => interval_cases n; simp [lgF]
    | f + 1, g + 1 =>
      simp only [lgF]
      by_cases h0 : n ≤ 1
      · simp [h0]
      · simp only [h0, if_false]
        have hlt : n / 2 < n := Nat.div_lt_self (by omega) (by omega)
        have := ih f (by omega) (g := g) (n := n / 2) (by omega) (by omega)
        omega

theorem lg_small (n : Nat) (h : n ≤ 1) : lg n = 0 := by
  unfold lg
  interval_cases n <;> simp [lgF]

theorem lg_step (n : Nat) (h : 2 ≤ n) : lg n = lg (n / 2) + 1 := by
  unfold lg
  match n, h with
  | n + 2, _ =>
    simp only [lgF]
    have hle : ¬(n + 2 ≤ 1) := by omega
    simp only [hle, if_false]
    have : (n + 2) / 2 ≤ n + 1 := by omega
    exact congrArg (· + 1) (lgF_congr this (by omega))

theorem lg_spec (n : Nat) (h : 1 ≤ n) : 2 ^ lg n ≤ n ∧ n < 2 ^ (lg n + 1) := by
  induction n using Nat.strong_induction_on with
  | _ n ih =>
    by_cases h1 : n ≤ 1
    · interval_cases n
      · simp [lg_small]
    · have h2 : 2 ≤ n := by omega
      rw [lg_step n h2]
      have hrec := ih (n / 2) (by omega) (by omega)
      constructor
      · calc 2 ^ (lg (n / 2) + 1) = 2 ^ lg (n / 2) * 2 := by rw [pow_succ]
        _ ≤ n / 2 * 2 := by exact Nat.mul_le_mul_right 2 hrec.1
        _ ≤ n := by omega
      · have : n / 2 < 2 ^ (lg (n / 2) + 1) := hrec.2
        calc n < (n / 2 + 1) * 2 := by omega
        _ ≤ 2 ^ (lg (n / 2) + 1) * 2 := by
              exact Nat.mul_le_mul_right 2 (by omega)
        _ = 2 ^ (lg (n / 2) + 1 + 1) := (pow_succ 2 (lg (n / 2) + 1)).symm

theorem lg_eq_of (n t : Nat) (h1 : 2 ^ t ≤ n) (h2 : n < 2 ^ (t + 1)) :
    lg n = t := by
  have hn : 1 ≤ n := le_trans (Nat.one_le_two_pow) h1
  have hs := lg_spec n hn
  by_contra hne
  rcases Nat.lt_or_ge (lg n) t with hlt | hge
  · have : 2 ^ (lg n + 1) ≤ 2 ^ t := Nat.pow_le_pow_right (by omega) (by omega)
    omega
  · have ht : t + 1 ≤ lg n := by omega
    have : 2 ^ (t + 1) ≤ 2 ^ lg n := Nat.pow_le_pow_right (by omega) ht
    omega

theorem find_last_set_spec (n : Nat) (h : 1 ≤ n) :
    2 ^ (find_last_set n - 1) ≤ n ∧ n < 2 ^ find_last_set n := by
  unfold find_last_set
  have hne : n ≠ 0 := by omega
  simp only [hne, if_false]
  have := lg_spec n h
  simpa using this

theorem find_last_set_pos (n : Nat) (h : 1 ≤ n) : 1 ≤ find_last_set n := by
  unfold find_last_set
  have hne : n ≠ 0 := by omega
  simp [hne]

theorem find_last_set_eq (n k : Nat) (h1 : 2 ^ k ≤ n) (h2 : n < 2 ^ (k + 1)) :
    find_last_set n = k + 1 := by
  unfold find_last_set
  have hn : n ≠ 0 := by
    have := Nat.one_le_two_pow (n := k)
    omega
  simp only [hn, if_false]
  rw [lg_eq_of n k h1 h2]

end dyn

namespace dyn

/-! ### Little-endian digit sums -/

theorem dsum_congr {g g2 : Nat → Nat} : ∀ {n : Nat}, (∀ j < n, g j = g2 j) →
    dsum g n = dsum g2 n := by
  intro n
  induction n generalizing g g2 with
  | zero => intro _; rfl
  | succ n ih =>
    intro h
    simp only [dsum]
    rw [h 0 (by omega), ih (fun j hj => h (j + 1) (by omega))]

theorem dsum_lt {g : Nat → Nat} : ∀ {n : Nat}, (∀ j < n, g j < 256) →
    dsum g n < 256 ^ n := by
  intro n
  induction n generalizing g with
  | zero => intro _; simp [dsum]
  | succ n ih =>
    intro h
    simp only [dsum]
    have h0 : g 0 < 256 := h 0 (by omega)
    have ht : dsum (fun j => g (j + 1)) n < 256 ^ n :=
      ih (fun j hj => h (j + 1) (by omega))
    calc g 0 + 256 * dsum (fun j => g (j + 1)) n
        < 256 + 256 * dsum (fun j => g (j + 1)) n := by omega
      _ ≤ 256 + 256 * (256 ^ n - 1) := by
          have : dsum (fun j => g (j + 1)) n ≤ 256 ^ n - 1 := by omega
          exact Nat.add_le_add_left (Nat.mul_le_mul_left 256 this) 256
      _ ≤ 256 ^ (n + 1) := by
          have : 1 ≤ (256:Nat) ^ n := Nat.one_le_pow _ _ (by omega)
          rw [pow_succ]
          omega

theorem dsum_digit {g : Nat → Nat} : ∀ {i n : Nat}, (∀ j < n, g j < 256) →
    i < n → dsum g n / 256 ^ i % 256 = g i := by
  intro i
  induction i generalizing g with
  | zero =>
    intro n h hi
    match n, hi with
    | n + 1, _ =>
      simp only [dsum, pow_zero, Nat.div_one]
      rw [Nat.add_mul_mod_self_left]
      exact Nat.mod_eq_of_lt (h 0 (by omega))
  | succ i ih =>
    intro n h hi
    match n, hi with
    | n + 1, hi =>
      simp only [dsum]
      have hdiv : (g 0 + 256 * dsum (fun j => g (j + 1)) n) / 256 ^ (i + 1) =
          dsum (fun j => g (j + 1)) n / 256 ^ i := by
        rw [pow_succ, Nat.mul_comm (256 ^ i) 256, ← Nat.div_div_eq_div_mul]
        congr 1
        rw [Nat.add_mul_div_left _ _ (by omega : (0:Nat) < 256)]
        rw [Nat.div_eq_of_lt (h 0 (by omega))]
        omega
      rw [hdiv, ih (fun j hj => h (j + 1) (by omega)) (by omega)]

theorem dsum_split {g : Nat → Nat} : ∀ {W n : Nat}, W ≤ n →
    dsum g n = dsum g W + 256 ^ W * dsum (fun j => g (W + j)) (n - W) := by
  intro W
  induction W generalizing g with
  | zero =>
    intro n _
    simp only [dsum, pow_zero, Nat.one_mul, Nat.zero_add, Nat.sub_zero]
  | succ W ih =>
    intro n hW
    match n, hW with
    | n + 1, hW =>
      simp only [dsum]
      rw [ih (g := fun j => g (j + 1)) (n := n) (by omega)]
      have hidx : n + 1 - (W + 1) = n - W := by omega
      rw [hidx]
      rw [show (fun j => g (W + j + 1)) = (fun j => g (W + 1 + j)) from
        funext (fun j => by congr 1; omega)]
      ring

theorem dsum_mod {g : Nat → Nat} {W n : Nat} (h : ∀ j < n, g j < 256)
    (hW : W ≤ n) : dsum g n % 256 ^ W = dsum g W := by
  rw [dsum_split hW, Nat.add_mul_mod_self_left]
  exact Nat.mod_eq_of_lt (dsum_lt (fun j hj => h j (by omega)))

theorem dsum_digits_of_lt : ∀ {n w : Nat}, w < 256 ^ n →
    dsum (fun j => w / 256 ^ j % 256) n = w := by
  intro n
  induction n with
  | zero => intro w hw; interval_cases w; rfl
  | succ n ih =>
    intro w hw
    simp only [dsum]
    have he : dsum (fun j => w / 256 ^ (j + 1) % 256) n =
        dsum (fun j => (w / 256) / 256 ^ j % 256) n :=
      dsum_congr (fun j _ => by
        rw [pow_succ, Nat.mul_comm (256 ^ j) 256, ← Nat.div_div_eq_div_mul])
    have hlt : w / 256 < 256 ^ n := by
      rw [Nat.div_lt_iff_lt_mul (by omega)]
      calc w < 256 ^ (n + 1) := hw
        _ = 256 ^ n * 256 := by rw [pow_succ]
    rw [he, ih hlt]
    simp only [pow_zero, Nat.div_one]
    omega

/-! ### 64-bit loads and stores -/

theorem U64_eq : U64 = 256 ^ 8 := by
  unfold U64
  rw [show (256:Nat) = 2 ^ 8 by norm_num, ← pow_mul]

theorem pow256_eq (k : Nat) : 256 ^ k = 2 ^ (8 * k) := by
  rw [show (256:Nat) = 2 ^ 8 by norm_num, ← pow_mul]

theorem load64_lt {m : Nat → Nat} (hb : bytesLt m) (p : Nat) :
    load64 m p < U64 := by
  rw [U64_eq]
  exact dsum_lt (fun j _ => hb (p + j))

theorem load64_digit {m : Nat → Nat} (hb : bytesLt m) {p i : Nat} (hi : i < 8) :
    load64 m p / 256 ^ i % 256 = m (p + i) := by
  exact dsum_digit (fun j _ => hb (p + j)) hi

theorem load64_mod {m : Nat → Nat} (hb : bytesLt m) {p W : Nat} (hW : W ≤ 8) :
    load64 m p % 256 ^ W = dsum (fun j => m (p + j)) W := by
  exact dsum_mod (fun j _ => hb (p + j)) hW

theorem store64_read (m : Nat → Nat) (p w q : Nat) :
    store64 m p w q = if p ≤ q ∧ q < p + 8 then w / 256 ^ (q - p) % 256
      else m q := rfl

theorem bytesLt_store64 {m : Nat → Nat} (hb : bytesLt m) (p w : Nat) :
    bytesLt (store64 m p w) := by
  intro q
  rw [store64_read]
  split
  · exact Nat.mod_lt _ (by omega)
  · exact hb q

theorem load64_store64_self {m : Nat → Nat} {p w : Nat} (hw : w < U64) :
    load64 (store64 m p w) p = w := by
  unfold load64
  have he : dsum (fun j => store64 m p w (p + j)) 8 =
      dsum (fun j => w / 256 ^ j % 256) 8 :=
    dsum_congr (fun j hj => by
      rw [store64_read]
      have : p ≤ p + j ∧ p + j < p + 8 := by omega
      simp [this])
  rw [he, dsum_digits_of_lt (U64_eq ▸ hw)]

/-! ### Bitwise facts on `Nat` -/

theorem testBit_two_pow_mul (k b i : Nat) :
    (2 ^ k * b).testBit i = if k ≤ i then b.testBit (i - k) else false := by
  rw [Nat.testBit_to_div_mod]
  split
  · next h =>
    rw [Nat.testBit_to_div_mod]
    congr 2
    have : (2:Nat) ^ i = 2 ^ k * 2 ^ (i - k) := by
      rw [← pow_add]
      congr 1
      omega
    rw [this, ← Nat.div_div_eq_div_mul, Nat.mul_div_cancel_left _
      (Nat.pos_pow_of_pos k (by omega))]
  · next h =>
    have hik : i < k := by omega
    have : 2 ^ k * b / 2 ^ i = 2 ^ (k - i) * b := by
      have : (2:Nat) ^ k = 2 ^ i * 2 ^ (k - i) := by
        rw [← pow_add]
        congr 1
        omega
      rw [this, Nat.mul_assoc, Nat.mul_div_cancel_left _
        (Nat.pos_pow_of_pos i (by omega))]
    rw [this]
    have : 2 ^ (k - i) * b % 2 = 0 := by
      have h2 : (2:Nat) ^ (k - i) = 2 * 2 ^ (k - i - 1) := by
        rw [Nat.mul_comm, ← pow_succ]
        congr 1
        omega
      rw [h2, Nat.mul_assoc]
      exact Nat.mul_mod_right 2 _
    simp [this]

theorem testBit_high_low {lo : Nat} (hi : Nat) {s : Nat} (hlo : lo < 2 ^ s)
    (i : Nat) : (2 ^ s * hi + lo).testBit i =
      if i < s then lo.testBit i else hi.testBit (i - s) := by
  rw [Nat.testBit_to_div_mod]
  split
  · next h =>
    rw [Nat.testBit_to_div_mod]
    congr 2
    have hsplit : (2:Nat) ^ s = 2 ^ i * 2 ^ (s - i) := by
      rw [← pow_add]; congr 1; omega
    rw [hsplit, Nat.mul_assoc, Nat.add_comm, Nat.add_mul_div_left _ _
      (Nat.pos_pow_of_pos i (by omega))]
    have : (2 ^ (s - i) * hi) % 2 = 0 := by
      have h2 : (2:Nat) ^ (s - i) = 2 * 2 ^ (s - i - 1) := by
        rw [Nat.mul_comm, ← pow_succ]
        congr 1
        omega
      rw [h2, Nat.mul_assoc]
      exact Nat.mul_mod_right 2 _
    omega
  · next h =>
    rw [Nat.testBit_to_div_mod]
    congr 2
    have his : s ≤ i := by omega
    have hstep : (2 ^ s * hi + lo) / 2 ^ s = hi := by
      rw [Nat.add_comm, Nat.add_mul_div_left _ _ (Nat.pos_pow_of_pos s (by omega)),
        Nat.div_eq_of_lt hlo]
      omega
    have : (2:Nat) ^ i = 2 ^ s * 2 ^ (i - s) := by
      rw [← pow_add]; congr 1; omega
    rw [this, ← Nat.div_div_eq_div_mul, hstep]

theorem land_mask_mod (a k : Nat) : a &&& (2 ^ k - 1) = a % 2 ^ k :=
  Nat.and_pow_two_sub_one_eq_mod a k

theorem land_not64_mask {a : Nat} (ha : a < U64) {k : Nat} (hk : k ≤ 64) :
    a &&& not64 (2 ^ k - 1) = 2 ^ k * (a / 2 ^ k) := by
  apply Nat.eq_of_testBit_eq
  intro i
  rw [Nat.testBit_land]
  unfold not64
  rw [Nat.testBit_xor, Nat.testBit_two_pow_sub_one, testBit_two_pow_mul]
  rcases Nat.lt_or_ge i k with hik | hik
  · have h64 : i < 64 := by omega
    have : U64 - 1 = 2 ^ 64 - 1 := rfl
    rw [this, Nat.testBit_two_pow_sub_one]
    simp [hik, h64, Nat.not_le.mpr hik]
  · have hdivbit : (a / 2 ^ k).testBit (i - k) = a.testBit i := by
      rw [Nat.testBit_to_div_mod, Nat.testBit_to_div_mod,
        Nat.div_div_eq_div_mul, ← pow_add]
      rw [show k + (i - k) = i from by omega]
    rcases Nat.lt_or_ge i 64 with h64 | h64
    · have : U64 - 1 = 2 ^ 64 - 1 := rfl
      rw [this, Nat.testBit_two_pow_sub_one]
      have hnk : ¬ i < k := by omega
      simp [hnk, h64, hik, hdivbit]
    · have hbit : a.testBit i = false :=
        Nat.testBit_lt_two_pow (lt_of_lt_of_le ha (Nat.pow_le_pow_right
          (by omega) h64))
      have hdb : (a / 2 ^ k).testBit (i - k) = false := by
        rw [hdivbit, hbit]
      simp [hik, hbit, hdb]

theorem lor_high_low {lo : Nat} (hi : Nat) {s : Nat} (hlo : lo < 2 ^ s) :
    (2 ^ s * hi) ||| lo = 2 ^ s * hi + lo := by
  apply Nat.eq_of_testBit_eq
  intro i
  rw [Nat.testBit_lor, testBit_high_low hi hlo, testBit_two_pow_mul]
  rcases Nat.lt_or_ge i s with his | his
  · have : ¬ s ≤ i := by omega
    simp [his, this]
  · have hlobit : lo.testBit i = false :=
      Nat.testBit_lt_two_pow (lt_of_lt_of_le hlo (Nat.pow_le_pow_right
        (by omega) his))
    have : ¬ i < s := by omega
    simp [his, this, hlobit]

theorem xor_high_low {r : Nat} (c : Nat) {s : Nat} (hr : r < 2 ^ s) :
    (2 ^ s * c + r) ^^^ (2 ^ s * c) = r := by
  apply Nat.eq_of_testBit_eq
  intro i
  rw [Nat.testBit_xor, testBit_high_low c hr, testBit_two_pow_mul]
  rcases Nat.lt_or_ge i s with his | his
  · have : ¬ s ≤ i := by omega
    simp [his, this]
  · have hrbit : r.testBit i = false :=
      Nat.testBit_lt_two_pow (lt_of_lt_of_le hr (Nat.pow_le_pow_right
        (by omega) his))
    have : ¬ i < s := by omega
    simp [his, this, hrbit]

end dyn

namespace dyn

/-! ### Characterisation of the node-level read-modify-write stores -/

theorem byteMask_eq (k : Nat) (hk : k ≤ 8) : byteMask k = 2 ^ (8 * k) - 1 := by
  interval_cases k <;> decide

theorem digit_lo {lo : Nat} (hi : Nat) {s j : Nat} (hj : j < s) :
    (256 ^ s * hi + lo) / 256 ^ j % 256 = (lo / 256 ^ j + 256 * (256 ^ (s - j - 1) * hi)) % 256 := by
  have hsplit : (256:Nat) ^ s = 256 ^ j * (256 * 256 ^ (s - j - 1)) := by
    rw [← pow_succ', ← pow_add]
    congr 1
    omega
  rw [hsplit, Nat.mul_assoc, Nat.add_comm,
    Nat.add_mul_div_left _ _ (Nat.pos_pow_of_pos j (by omega))]
  rw [Nat.mul_assoc]

theorem digit_lo' {lo : Nat} (hi : Nat) {s j : Nat} (hj : j < s) :
    (256 ^ s * hi + lo) / 256 ^ j % 256 = lo / 256 ^ j % 256 := by
  rw [digit_lo hi hj, Nat.add_mul_mod_self_left]

theorem digit_hi {lo : Nat} (hi : Nat) {s j : Nat} (hj : s ≤ j) (hlo : lo < 256 ^ s) :
    (256 ^ s * hi + lo) / 256 ^ j = hi / 256 ^ (j - s) := by
  have hstep : (256 ^ s * hi + lo) / 256 ^ s = hi := by
    rw [Nat.add_comm, Nat.add_mul_div_left _ _ (Nat.pos_pow_of_pos s (by omega)),
      Nat.div_eq_of_lt hlo]
    omega
  rw [show (256:Nat) ^ j = 256 ^ s * 256 ^ (j - s) from by rw [← pow_add]; congr 1; omega,
    ← Nat.div_div_eq_div_mul, hstep]

theorem writeNode_read {m : Nat → Nat} (hb : bytesLt m) {p sz val : Nat}
    (hsz : sz ≤ 8) (hval : val < 256 ^ sz) (q : Nat) :
    writeNode m p sz val q =
      if p ≤ q ∧ q < p + sz then val / 256 ^ (q - p) % 256 else m q := by
  have hold : load64 m p < U64 := load64_lt hb p
  have hmask : byteMask sz = 2 ^ (8 * sz) - 1 := byteMask_eq sz hsz
  have h864 : 8 * sz ≤ 64 := by omega
  have hpow : (2:Nat) ^ (8 * sz) = 256 ^ sz := (pow256_eq sz).symm
  have hw1 : load64 m p &&& not64 (byteMask sz) =
      256 ^ sz * (load64 m p / 256 ^ sz) := by
    rw [hmask, land_not64_mask hold h864, hpow]
  have hw1lt : 256 ^ sz * (load64 m p / 256 ^ sz) < U64 :=
    lt_of_le_of_lt (by rw [Nat.mul_comm]; exact Nat.div_mul_le_self _ _) hold
  have hvalmask : val &&& byteMask sz = val := by
    rw [hmask, land_mask_mod, hpow, Nat.mod_eq_of_lt hval]
  show store64 (store64 m p (load64 m p &&& not64 (byteMask sz))) p
      (load64 (store64 m p (load64 m p &&& not64 (byteMask sz))) p |||
        (val &&& byteMask sz)) q = _
  rw [hw1, hvalmask, load64_store64_self hw1lt]
  have hw2 : 256 ^ sz * (load64 m p / 256 ^ sz) ||| val =
      256 ^ sz * (load64 m p / 256 ^ sz) + val := by
    have : val < 2 ^ (8 * sz) := by rw [hpow]; exact hval
    rw [← hpow]
    exact lor_high_low _ this
  rw [hw2, store64_read]
  by_cases h8 : p ≤ q ∧ q < p + 8
  · rw [if_pos h8]
    by_cases hs : p ≤ q ∧ q < p + sz
    · rw [if_pos hs]
      exact digit_lo' _ (by omega)
    · rw [if_neg hs]
      rw [digit_hi _ (by omega) hval, Nat.div_div_eq_div_mul, ← pow_add,
        show sz + (q - p - sz) = q - p from by omega,
        load64_digit hb (by omega : q - p < 8),
        show p + (q - p) = q from by omega]
  · rw [if_neg h8, store64_read, if_neg h8,
      if_neg (show ¬(p ≤ q ∧ q < p + sz) from by omega)]

theorem bytesLt_writeNode {m : Nat → Nat} (hb : bytesLt m) (p sz val : Nat) :
    bytesLt (writeNode m p sz val) :=
  bytesLt_store64 (bytesLt_store64 hb _ _) _ _

theorem u64addInt_split {w sz : Nat} {inc : Int} (hsz : sz ≤ 8) (hw : w < U64)
    (h0 : 0 ≤ ((w % 256 ^ sz : Nat) : Int) + inc)
    (h1 : ((w % 256 ^ sz : Nat) : Int) + inc < ((256 ^ sz : Nat) : Int)) :
    u64addInt w inc =
      256 ^ sz * (w / 256 ^ sz) + (((w % 256 ^ sz : Nat) : Int) + inc).toNat := by
  have hBpos : 0 < (256:Nat) ^ sz := Nat.pos_pow_of_pos _ (by omega)
  have hdm : 256 ^ sz * (w / 256 ^ sz) + w % 256 ^ sz = w := Nat.div_add_mod _ _
  have hlo2 : ((w % 256 ^ sz : Nat) : Int) + inc =
      (((((w % 256 ^ sz : Nat) : Int) + inc).toNat : Nat) : Int) :=
    (Int.toNat_of_nonneg h0).symm
  have hlo2lt : (((w % 256 ^ sz : Nat) : Int) + inc).toNat < 256 ^ sz := by
    have h2 := h1
    rw [hlo2] at h2
    exact_mod_cast h2
  have hX : w / 256 ^ sz < 256 ^ (8 - sz) := by
    rw [Nat.div_lt_iff_lt_mul hBpos, ← pow_add,
      show 8 - sz + sz = 8 from by omega, ← U64_eq]
    exact hw
  have hlt2 : 256 ^ sz * (w / 256 ^ sz) +
      (((w % 256 ^ sz : Nat) : Int) + inc).toNat < U64 := by
    calc 256 ^ sz * (w / 256 ^ sz) + (((w % 256 ^ sz : Nat) : Int) + inc).toNat
        < 256 ^ sz * (w / 256 ^ sz) + 256 ^ sz := by omega
      _ = 256 ^ sz * (w / 256 ^ sz + 1) := by ring
      _ ≤ 256 ^ sz * 256 ^ (8 - sz) := Nat.mul_le_mul_left _ hX
      _ = 256 ^ 8 := by rw [← pow_add]; congr 1; omega
      _ = U64 := U64_eq.symm
  unfold u64addInt
  have hcast : (w : Int) + inc =
      ((256 ^ sz * (w / 256 ^ sz) +
        (((w % 256 ^ sz : Nat) : Int) + inc).toNat : Nat) : Int) := by
    have h2 : ((256 ^ sz * (w / 256 ^ sz) +
        (((w % 256 ^ sz : Nat) : Int) + inc).toNat : Nat) : Int) =
        ((256 ^ sz * (w / 256 ^ sz) : Nat) : Int) +
          (((((w % 256 ^ sz : Nat) : Int) + inc).toNat : Nat) : Int) := by
      push_cast
      ring
    rw [h2, ← hlo2]
    have h3 : (w : Int) =
        ((256 ^ sz * (w / 256 ^ sz) : Nat) : Int) + ((w % 256 ^ sz : Nat) : Int) := by
      exact_mod_cast hdm.symm
    rw [h3]
    ring
  rw [hcast, Int.emod_eq_of_lt (by positivity) (by exact_mod_cast hlt2)]
  omega

theorem addAt_read {m : Nat → Nat} (hb : bytesLt m) {p sz : Nat} {inc : Int}
    (hsz : sz ≤ 8)
    (hfit0 : 0 ≤ ((load64 m p % 256 ^ sz : Nat) : Int) + inc)
    (hfit1 : ((load64 m p % 256 ^ sz : Nat) : Int) + inc < ((256 ^ sz : Nat) : Int))
    (q : Nat) :
    addAt m p inc q =
      if p ≤ q ∧ q < p + sz then
        (((load64 m p % 256 ^ sz : Nat) : Int) + inc).toNat / 256 ^ (q - p) % 256
      else m q := by
  have hold : load64 m p < U64 := load64_lt hb p
  have hlo2lt : (((load64 m p % 256 ^ sz : Nat) : Int) + inc).toNat < 256 ^ sz := by
    omega
  unfold addAt
  rw [u64addInt_split hsz hold hfit0 hfit1, store64_read]
  by_cases h8 : p ≤ q ∧ q < p + 8
  · rw [if_pos h8]
    by_cases hs : p ≤ q ∧ q < p + sz
    · rw [if_pos hs]
      exact digit_lo' _ (by omega)
    · rw [if_neg hs]
      rw [digit_hi _ (by omega) hlo2lt, Nat.div_div_eq_div_mul, ← pow_add,
        show sz + (q - p - sz) = q - p from by omega,
        load64_digit hb (by omega : q - p < 8),
        show p + (q - p) = q from by omega]
  · rw [if_neg h8, if_neg (show ¬(p ≤ q ∧ q < p + sz) from by omega)]

theorem bytesLt_addAt {m : Nat → Nat} (hb : bytesLt m) (p : Nat) (inc : Int) :
    bytesLt (addAt m p inc) :=
  bytesLt_store64 hb _ _

end dyn

namespace dyn

/-! ### The `ByteFenwickTree` of include/fenwick/byte.hpp -/

/-- `ByteFenwickTree::get_size`: bytes per node at level `height` for template
parameter `LEAF_BITSIZE = LB`: `(height + LEAF_BITSIZE - 1) / 8 + 1`. -/
def get_size (LB height : Nat) : Nat := (height + LB - 1) / 8 + 1

/-- Number of nodes of level `l` (the count of odd multiples `(2k+1)·2^l ≤ N`);
this is the factor `(size + (1 << (i-1))) / (1 << i)` of the `level` table. -/
def cnt (N l : Nat) : Nat := (N + 2 ^ l) / 2 ^ (l + 1)

/-- The `level` lookup table: `level[0] = 0`,
`level[i] = ((size + 2^(i-1)) / 2^i) * get_size(i-1) + level[i-1]`. -/
def levelArr (LB N : Nat) : Nat → Nat
  | 0 => 0
  | l + 1 => levelArr LB N l + cnt N l * get_size LB l

/-- `levels = level.size() - 1 = find_last_set(size)`. -/
def levels (N : Nat) : Nat := find_last_set N

/-- Byte position of the node with level `l` and level index `k`:
`level[l] + get_size(l) * k`. -/
def nodePos (LB N l k : Nat) : Nat := levelArr LB N l + get_size LB l * k

/-- The allocation size of the tree buffer: `level[levels] + 3` bytes
(the constructor comment: `+3 to prevent segfault on the last element`). -/
def allocBytes (LB N : Nat) : Nat := levelArr LB N (levels N) + 3

/-- A masked node read, `*compact_element & BYTE_MASK[elem_size]`. -/
def readNode (LB N : Nat) (m : Nat → Nat) (l k : Nat) : Nat :=
  load64 m (nodePos LB N l k) &&& byteMask (get_size LB l)

/-- The value the constructor computes for node `node` of level `l`:
`sequence[node-1]` plus the masked reads of the already-written nodes at
levels `j < l` and level index `(node-1) >> (j+1)`. -/
def buildVal (LB N : Nat) (m : Nat → Nat) (v : Nat → Nat) (l node : Nat) : Nat :=
  (List.range l).foldl
    (fun acc j => acc + readNode LB N m j ((node - 1) / 2 ^ (j + 1)))
    (v (node - 1))

/-- One constructor write: the body of the inner loop at level `l` for the
node with level index `k` (`node = (2k+1)·2^l`). -/
def buildStep (LB N : Nat) (v : Nat → Nat) (l : Nat) (m : Nat → Nat) (k : Nat) :
    Nat → Nat :=
  writeNode m (nodePos LB N l k) (get_size LB l)
    (buildVal LB N m v l ((2 * k + 1) * 2 ^ l))

/-- All writes of level `l` in order (the inner `for` loop: `node` runs over
`2^l, 3·2^l, …` while `node ≤ size`, i.e. `k < cnt N l`). -/
def buildLevel (LB N : Nat) (v : Nat → Nat) (l : Nat) (m : Nat → Nat) :
    Nat → Nat :=
  (List.range (cnt N l)).foldl (buildStep LB N v l) m

/-- The constructor `ByteFenwickTree(sequence, size)`: starting from the
zero-initialised buffer, fill levels `0, …, levels-1` in order. -/
def byteTree (LB N : Nat) (v : Nat → Nat) : Nat → Nat :=
  (List.range (levels N)).foldl (fun m l => buildLevel LB N v l m) (fun _ => 0)

/-- Loop of `ByteFenwickTree::get`, the do-while over the Fenwick
decomposition of `y = idx + 1`; the first argument is fuel (the C++ loop
makes at most `popcount y ≤ y` iterations and `get` passes fuel `y`). -/
def getLoop (LB N : Nat) (m : Nat → Nat) (y : Nat) : Nat → Nat → Nat → Nat
  | 0, _, sum => sum
  | steps + 1, x, sum =>
    let x2 := x + mask_last_set (y ^^^ x)
    let h := find_first_set x2 - 1
    let sum2 := sum + readNode LB N m h (x2 / 2 ^ (1 + h))
    if y ^^^ x2 = 0 then sum2 else getLoop LB N m y steps x2 sum2

/-- `ByteFenwickTree::get(idx)` (prefix sum). -/
def get (LB N : Nat) (m : Nat → Nat) (idx : Nat) : Nat :=
  getLoop LB N m (idx + 1) (idx + 1) 0 0

/-- The `height` computed for Fenwick position `idx`:
`find_first_set(idx) - 1`. -/
def heightOf (idx : Nat) : Nat := find_first_set idx - 1

/-- The `level_idx` computed for Fenwick position `idx`:
`idx >> (1 + height)`. -/
def levelIdxOf (idx : Nat) : Nat := idx / 2 ^ (1 + heightOf idx)

/-- Loop of `ByteFenwickTree::set`:
`for (idx = idx+1; idx <= size; idx += mask_first_set(idx))`, adding `inc` to
the 64-bit word at the node's byte position.  The first argument is fuel (the
loop makes at most `find_last_set N` iterations and `set` passes `N + 1`). -/
def setLoop (LB N : Nat) (inc : Int) : Nat → (Nat → Nat) → Nat → (Nat → Nat)
  | 0, m, _ => m
  | f + 1, m, idx =>
    if idx ≤ N then
      setLoop LB N inc f
        (addAt m (nodePos LB N (heightOf idx) (levelIdxOf idx)) inc)
        (idx + mask_first_set idx)
    else m

/-- `ByteFenwickTree::set(idx, inc)`. -/
def set (LB N : Nat) (m : Nat → Nat) (idx : Nat) (inc : Int) : Nat → Nat :=
  setLoop LB N inc (N + 1) m (idx + 1)

/-- The 1-based Fenwick positions visited by `set(i, ·)` (leaf `i+1` and its
ancestors up to the root). -/
def pathF (N : Nat) : Nat → Nat → List Nat
  | 0, _ => []
  | f + 1, idx =>
    if idx ≤ N then idx :: pathF N f (idx + mask_first_set idx) else []

/-- The Fenwick update path of index `i`. -/
def path (N i : Nat) : List Nat := pathF N (N + 1) (i + 1)

/-- The byte region of the node at level `l`, level index `k`: positions
`[nodePos, nodePos + get_size l)`, the bytes that store the node's value. -/
def inRegion (LB N l k q : Nat) : Prop :=
  nodePos LB N l k ≤ q ∧ q < nodePos LB N l k + get_size LB l

/-- The increment `inc` keeps the node visited at Fenwick position `idx`
within its per-level width: the node's stored value (the low
`get_size(height)` bytes of the unaligned word at its position) plus `inc`
stays in `[0, 256^get_size(height))`, so the 64-bit read-modify-write add
neither borrows from nor carries into the neighbouring bytes. -/
def fitAt (LB N : Nat) (inc : Int) (m : Nat → Nat) (idx : Nat) : Prop :=
  0 ≤ ((load64 m (nodePos LB N (heightOf idx) (levelIdxOf idx)) %
      256 ^ get_size LB (heightOf idx) : Nat) : Int) + inc ∧
  ((load64 m (nodePos LB N (heightOf idx) (levelIdxOf idx)) %
      256 ^ get_size LB (heightOf idx) : Nat) : Int) + inc <
    ((256 ^ get_size LB (heightOf idx) : Nat) : Int)

instance (LB N : Nat) (inc : Int) (m : Nat → Nat) (idx : Nat) :
    Decidable (fitAt LB N inc m idx) := by
  unfold fitAt
  infer_instance

/-- The `value` computed by one iteration of `ByteFenwickTree::find` at
height `hs` with level index `idx`: a probe whose byte position reaches past
`level[levels]` yields `-1ULL`, otherwise the masked unaligned load; with
`cmpl` set the value is replaced by `(1 << (LEAF_BITSIZE + height - 1)) - v0`
in uint64 arithmetic. -/
def probeRaw (LB N : Nat) (m : Nat → Nat) (hs idx : Nat) : Nat :=
  if levelArr LB N (levels N) ≤ levelArr LB N hs + get_size LB hs * idx
    then U64 - 1
    else load64 m (levelArr LB N hs + get_size LB hs * idx) &&&
      byteMask (get_size LB hs)

/-- The `value` of an iteration, after the optional complement step. -/
def probeVal (LB N : Nat) (m : Nat → Nat) (cmpl : Bool) (hs idx : Nat) : Nat :=
  if cmpl then u64sub (2 ^ (LB + hs - 1) % U64) (probeRaw LB N m hs idx)
  else probeRaw LB N m hs idx

/-- Loop of `ByteFenwickTree::find`: heights `levels-1` down to `0`; the
first `Nat` argument is the number of heights still to process and the state
is `(node, idx, val)`. -/
def findLoop (LB N : Nat) (m : Nat → Nat) (cmpl : Bool) :
    Nat → Nat → Nat → Nat → Nat × Nat × Nat
  | 0, node, idx, val => (node, idx, val)
  | hs + 1, node, idx, val =>
    if probeVal LB N m cmpl hs idx ≤ val then
      findLoop LB N m cmpl hs (node + 2 ^ hs) (2 * idx + 1)
        (val - probeVal LB N m cmpl hs idx)
    else
      findLoop LB N m cmpl hs node (2 * idx) val

/-- `ByteFenwickTree::find(val)`: the walk followed by
`return node <= size ? node-1 : size-1` (`node-1` in `size_t` arithmetic,
wrapping to `2^64 - 1` when `node = 0`). -/
def find (LB N : Nat) (m : Nat → Nat) (val : Nat) : Nat :=
  let r := findLoop LB N m false (levels N) 0 0 val
  if r.1 ≤ N then sub1_64 r.1 else N - 1

/-- `ByteFenwickTree::find(val, true)`, i.e. `find_complement`. -/
def find_complement (LB N : Nat) (m : Nat → Nat) (val : Nat) : Nat :=
  let r := findLoop LB N m true (levels N) 0 0 val
  if r.1 ≤ N then sub1_64 r.1 else N - 1

/-! ### Mathematical view of the stored data -/

/-- Sum of `v` over the index interval `[a, b)`. -/
def rangeSum (v : Nat → Nat) (a b : Nat) : Nat :=
  ((List.range (b - a)).map (fun i => v (a + i))).sum

/-- Prefix sum of the first `n` increments (`S[n-1]` in the spec's 0-based
notation). -/
def psum (v : Nat → Nat) (n : Nat) : Nat := rangeSum v 0 n

/-- The intended value of the node with level `l` and level index `k`
(1-based node number `n = (2k+1)·2^l`): the sum of `v` over `[n - 2^l, n)`. -/
def nodeVal (v : Nat → Nat) (l k : Nat) : Nat :=
  rangeSum v (2 * k * 2 ^ l) (2 * k * 2 ^ l + 2 ^ l)

/-- The level of the node region a byte offset belongs to. -/
def levelOf (LB N q : Nat) : Nat :=
  Nat.findGreatest (fun l => levelArr LB N l ≤ q) (levels N - 1)

/-- The intended buffer contents after the constructor has written all levels
below `l` and the first `kk` nodes of level `l`: bytes of written node
regions hold the little-endian digits of the node's value, everything else is
still zero. -/
def specUpTo (LB N : Nat) (v : Nat → Nat) (l kk : Nat) : Nat → Nat := fun q =>
  if q < levelArr LB N (levels N) then
    if levelOf LB N q < l ∨ (levelOf LB N q = l ∧
        (q - levelArr LB N (levelOf LB N q)) / get_size LB (levelOf LB N q) < kk) then
      nodeVal v (levelOf LB N q)
          ((q - levelArr LB N (levelOf LB N q)) / get_size LB (levelOf LB N q)) /
        256 ^ ((q - levelArr LB N (levelOf LB N q)) % get_size LB (levelOf LB N q)) %
        256
    else 0
  else 0

/-- The intended buffer contents after construction. -/
def byteSpec (LB N : Nat) (v : Nat → Nat) : Nat → Nat :=
  specUpTo LB N v (levels N) 0

/-- Modelled from the spec: the `find` walk of the naive one-word-per-node
Fenwick tree (`NaiveFenwickTree`, whose source is not under src/).  Per §4.1
it is the same top-down descent over the true node values, and addresses past
the last real node read as a value that never steers the search into
nonexistent territory, modelled as the unsigned sentinel `2^64 - 1`. -/
def naiveProbe (N : Nat) (v : Nat → Nat) (hs idx : Nat) : Nat :=
  if (2 * idx + 1) * 2 ^ hs ≤ N then nodeVal v hs idx else U64 - 1

/-- Modelled from the spec: the walk of `NaiveFenwickTree::find`. -/
def naiveFindLoop (N : Nat) (v : Nat → Nat) :
    Nat → Nat → Nat → Nat → Nat × Nat × Nat
  | 0, node, idx, val => (node, idx, val)
  | hs + 1, node, idx, val =>
    if naiveProbe N v hs idx ≤ val then
      naiveFindLoop N v hs (node + 2 ^ hs) (2 * idx + 1)
        (val - naiveProbe N v hs idx)
    else
      naiveFindLoop N v hs node (2 * idx) val

/-- Modelled from the spec: `NaiveFenwickTree::find`. -/
def naiveFind (N : Nat) (v : Nat → Nat) (val : Nat) : Nat :=
  let r := naiveFindLoop N v (levels N) 0 0 val
  if r.1 ≤ N then sub1_64 r.1 else N - 1

/-! ### The `LineRankSelect` of include/fenwick/byte.hpp

The bit array `_bitvector` is a function from word indices to 64-bit words;
the embedded Fenwick tree is the template parameter `T`, kept abstract as the
functions the methods call on it (`get`, `find`, the pointer-taking `find`).
-/

/-- `LineRankSelect::build_fenwick`: `sequence[i / WORDS] += popcount
(bitvector[i])` for every `i < length`, starting from the zero-initialised
`new uint64_t[length/WORDS + 1]()`. -/
def build_fenwick_seq (W len : Nat) (B : Nat → Nat) : Nat → Nat :=
  (List.range len).foldl
    (fun s i => fun j => if j = i / W then s j + popcount (B i) else s j)
    (fun _ => 0)

/-- The Fenwick input sequence the `DArray`-move constructor
`LineRankSelect(DArray<uint64_t>, size_t)` really builds: the member `tree`
is declared before `_bitvector`, so its initialiser
`build_fenwick(_bitvector.get(), length)` runs before
`_bitvector(std::move(bitvector))` and reads the not-yet-initialised
`_bitvector`, whose contents are arbitrary — the parameter `junk` — rather
than the words of `bitvector`. -/
def moveCtorSeq (W len : Nat) (junk : Nat → Nat) : Nat → Nat :=
  build_fenwick_seq W len junk

/-- `LineRankSelect::update(index, word)`: stores `word`, returns the old
word (the Fenwick update `tree.set(index / WORDS, popcount(word) -
popcount(old))` acts on the abstract tree and is kept at the call site). -/
def lineUpdate (B : Nat → Nat) (index word : Nat) : (Nat → Nat) × Nat :=
  (fun j => if j = index then word else B j, B index)

/-- `LineRankSelect::rank(pos)` (both variants have the same body):
`idx = pos/(64*WORDS)`; `value = idx ? tree.get(idx-1) : 0`; add
`popcount(_bitvector[i])` for `i` in `[idx*WORDS, pos/64)`; finally add
`popcount(_bitvector[pos/64] & compact_bitmask(pos % 64, 0))`.  The abstract
tree read `tree.get` is the parameter `tg`. -/
def lineRank (W : Nat) (tg : Nat → Nat) (B : Nat → Nat) (pos : Nat) : Nat :=
  (if pos / (64 * W) = 0 then 0 else tg (pos / (64 * W) - 1)) +
    rangeSum (fun i => popcount (B i)) (pos / (64 * W) * W) (pos / 64) +
    popcount (B (pos / 64) &&& compact_bitmask (pos % 64) 0)

/-- The word indices at which `LineRankSelect::rank(pos)` dereferences
`_bitvector`: the loop indices `[idx*WORDS, pos/64)` and the final
`_bitvector[pos/64]`. -/
def rankAccesses (W pos : Nat) : List Nat :=
  List.range' (pos / (64 * W) * W) (pos / 64 - pos / (64 * W) * W) ++
    [pos / 64]

/-- Bit `t` of the bit array (bit `t % 64` of word `t / 64`). -/
def bitGet (B : Nat → Nat) (t : Nat) : Nat := B (t / 64) / 2 ^ (t % 64) % 2

/-- The number of set bits of the bit array in positions `[0, p)`. -/
def bitRank (B : Nat → Nat) (p : Nat) : Nat := rangeSum (bitGet B) 0 p

/-- The word scan shared by both `select` bodies: for `W` iterations starting
at word `i`, return `i*64 + select64(B[i], r)` when `r < popcount(B[i])`,
else subtract the chunk popcount; `none` when the loop runs out. -/
def selectLoop (B : Nat → Nat) : Nat → Nat → Nat → Option Nat
  | 0, _, _ => none
  | w + 1, i, r =>
    if r < popcount (B i) then some (i * 64 + select64 (B i) r)
    else selectLoop B w (i + 1) (r - popcount (B i))

/-- The word scan of the `LEAF_MAXVAL` variant's `select`: like
`selectLoop` but `if (i >= _bitvector.size()) return SIZE_MAX` first. -/
def selectLoopMax (len : Nat) (B : Nat → Nat) : Nat → Nat → Nat → Option Nat
  | 0, _, _ => none
  | w + 1, i, r =>
    if len ≤ i then some (U64 - 1)
    else if r < popcount (B i) then some (i * 64 + select64 (B i) r)
    else selectLoopMax len B w (i + 1) (r - popcount (B i))

/-- `LineRankSelect::select` of the `LEAF_MAXVAL` variant: the tree's
pointer-taking `find(&rank)` is the abstract `tfp`, returning the node index
and the residual rank it leaves in `*rank`; the fall-through of the word
loop also returns `SIZE_MAX`. -/
def selectMaxval (W len : Nat) (tfp : Nat → Nat × Nat) (B : Nat → Nat)
    (k : Nat) : Nat :=
  match selectLoopMax len B W (((tfp k).1 + 1) * W) ((tfp k).2) with
  | some pos => pos
  | none => U64 - 1

/-- `LineRankSelect::select` of the `LEAF_BITSIZE` variant:
`idx = tree.find(rank) + 1`; `rank -= idx != 0 ? tree.get(idx-1) : 0`
(64-bit subtraction); the word loop has no bounds check and the fall-through
returns `(idx+1)*WORDS*64`.  The abstract tree calls are `tf` (`find`) and
`tg` (`get`). -/
def selectBitsize (W : Nat) (tf tg : Nat → Nat) (B : Nat → Nat) (k : Nat) :
    Nat :=
  match selectLoop B W ((tf k + 1) * W)
      (u64sub k (if tf k + 1 = 0 then 0 else tg (tf k + 1 - 1))) with
  | some pos => pos
  | none => (tf k + 1 + 1) * W * 64

/-! ### Concrete inputs used by the claim-level evaluations -/

/-- The all-ones input sequence. -/
def vOnes (_i : Nat) : Nat := 1

/-- A 21-element input on which the byte-packed `find` and the naive `find`
disagree: four 64s, twelve 0s, five 64s. -/
def vC3 (i : Nat) : Nat :=
  if i < 4 then 64 else if i < 16 then 0 else if i < 21 then 64 else 0

/-- A 21-element input on which `find_complement` on `v` and `find` on the
complemented sequence `i ↦ 64 - v i` disagree: eight 64s, thirteen 0s. -/
def vC5 (i : Nat) : Nat := if i < 8 then 64 else 0

/-- The complement of `vC5` with respect to the leaf maximum `64`. -/
def vC5c (i : Nat) : Nat := 64 - vC5 i

/-- The constant-3 input sequence. -/
def vConst3 (_i : Nat) : Nat := 3

/-- The constant-2 input sequence. -/
def vConst2 (_i : Nat) : Nat := 2

/-- The constant-62 sequence, the complement of `vConst2` for `L = 64`. -/
def vConst62 (_i : Nat) : Nat := 62

/-- The constant-5 input sequence. -/
def vConst5 (_i : Nat) : Nat := 5

/-- The all-zero word array. -/
def bZero (_i : Nat) : Nat := 0

/-- The `LEAF_BITSIZE` `LineRankSelect`'s embedded tree for a one-word
all-zero bit array with `WORDS = 1`: `ByteFenwickTree<7>` built from
`build_fenwick`'s sequence with `size = length = 1`. -/
def treeC9 : Nat → Nat := byteTree 7 1 (build_fenwick_seq 1 1 bZero)

/-- `tree.find` of `treeC9`. -/
def tfC9 (k : Nat) : Nat := find 7 1 treeC9 k

/-- `tree.get` of `treeC9`. -/
def tgC9 (j : Nat) : Nat := get 7 1 treeC9 j

/-- The constant-5 word array (two set bits per word). -/
def wB8 (_i : Nat) : Nat := 5

/-- A Fenwick view consistent with the blocks of `wB8` for `WORDS = 1`. -/
def tgB8 (j : Nat) : Nat := rangeSum (fun i => popcount (wB8 i)) 0 ((j + 1) * 1)

/-- An abstract pointer-taking `find` that lands on node 0 with residual 0. -/
def tfpW (_k : Nat) : Nat × Nat := (0, 0)

/-- An abstract `find` that returns node 0. -/
def tfW (_k : Nat) : Nat := 0

/-- An abstract `get` that returns 0. -/
def tgW (_j : Nat) : Nat := 0

end dyn

namespace dyn

/-! ### Arithmetic of levels, node counts and byte regions -/

theorem get_size_pos (LB h : Nat) : 1 ≤ get_size LB h := by
  unfold get_size
  omega

theorem get_size_le (LB h : Nat) (hh : h + LB ≤ 64) : get_size LB h ≤ 8 := by
  unfold get_size
  omega

theorem get_size_ge (LB h : Nat) : LB + h ≤ 8 * get_size LB h := by
  unfold get_size
  omega

theorem node_le_iff (N l k : Nat) : (2 * k + 1) * 2 ^ l ≤ N ↔ k < cnt N l := by
  have hp : 0 < (2:Nat) ^ l := Nat.pos_pow_of_pos _ (by omega)
  unfold cnt
  rw [pow_succ, ← Nat.div_div_eq_div_mul, Nat.add_div_right _ hp]
  constructor
  · intro h
    have h2 : 2 * k + 1 ≤ N / 2 ^ l := by
      rw [Nat.le_div_iff_mul_le hp]
      exact h
    omega
  · intro h
    have h2 : 2 * k + 1 ≤ N / 2 ^ l := by omega
    have h3 : (2 * k + 1) * 2 ^ l ≤ N / 2 ^ l * 2 ^ l :=
      Nat.mul_le_mul_right _ h2
    exact le_trans h3 (Nat.div_mul_le_self _ _)

theorem levels_pos (N : Nat) (h : 1 ≤ N) : 1 ≤ levels N :=
  find_last_set_pos N h

theorem N_pos_of_levels {N : Nat} (h : 1 ≤ levels N) : 1 ≤ N := by
  by_contra hc
  push_neg at hc
  interval_cases N
  simp [levels, find_last_set] at h

theorem two_pow_le_of_lt_levels {N l : Nat} (h : l < levels N) : 2 ^ l ≤ N := by
  have hN : 1 ≤ N := N_pos_of_levels (by omega)
  have := (find_last_set_spec N hN).1
  calc 2 ^ l ≤ 2 ^ (levels N - 1) := Nat.pow_le_pow_right (by omega) (by omega)
    _ ≤ N := this

theorem cnt_pos {N l : Nat} (h : l < levels N) : 1 ≤ cnt N l := by
  have h2 : 2 ^ l ≤ N := two_pow_le_of_lt_levels h
  unfold cnt
  rw [Nat.le_div_iff_mul_le (Nat.pos_pow_of_pos _ (by omega))]
  rw [pow_succ]
  omega

theorem N_lt_two_pow_levels (N : Nat) (h : 1 ≤ N) : N < 2 ^ levels N :=
  (find_last_set_spec N h).2

theorem levelArr_le_succ (LB N l : Nat) : levelArr LB N l ≤ levelArr LB N (l + 1) := by
  simp only [levelArr]
  omega

theorem levelArr_mono (LB N : Nat) {l1 l2 : Nat} (h : l1 ≤ l2) :
    levelArr LB N l1 ≤ levelArr LB N l2 := by
  induction l2 with
  | zero => interval_cases l1; omega
  | succ l2 ih =>
    rcases Nat.lt_or_ge l1 (l2 + 1) with hl | hl
    · exact le_trans (ih (by omega)) (levelArr_le_succ LB N l2)
    · have he : l1 = l2 + 1 := by omega
      rw [he]

theorem nodePos_add_lt {LB N l k : Nat} (hk : k < cnt N l) {r : Nat}
    (hr : r < get_size LB l) :
    nodePos LB N l k + r < levelArr LB N (l + 1) := by
  unfold nodePos
  simp only [levelArr]
  have : get_size LB l * k + get_size LB l ≤ get_size LB l * cnt N l := by
    calc get_size LB l * k + get_size LB l = get_size LB l * (k + 1) := by ring
      _ ≤ get_size LB l * cnt N l := Nat.mul_le_mul_left _ (by omega)
  have h2 : cnt N l * get_size LB l = get_size LB l * cnt N l := Nat.mul_comm _ _
  omega

theorem exists_owner (LB N : Nat) : ∀ {L q : Nat}, q < levelArr LB N L →
    ∃ l, l < L ∧ levelArr LB N l ≤ q ∧ q < levelArr LB N (l + 1) := by
  intro L
  induction L with
  | zero =>
    intro q hq
    simp [levelArr] at hq
  | succ L ih =>
    intro q hq
    rcases Nat.lt_or_ge q (levelArr LB N L) with hl | hl
    · obtain ⟨l, h1, h2, h3⟩ := ih hl
      exact ⟨l, by omega, h2, h3⟩
    · exact ⟨L, by omega, hl, hq⟩

theorem levelOf_eq {LB N l q : Nat} (hl : l < levels N)
    (h1 : levelArr LB N l ≤ q) (h2 : q < levelArr LB N (l + 1)) :
    levelOf LB N q = l := by
  unfold levelOf
  rw [Nat.findGreatest_eq_iff]
  refine ⟨by omega, fun _ => h1, ?_⟩
  intro n hn _
  intro hc
  have : levelArr LB N (l + 1) ≤ levelArr LB N n := levelArr_mono LB N (by omega)
  omega

theorem owner_div_mod {LB N l k r : Nat}
    (hr : r < get_size LB l) :
    (nodePos LB N l k + r - levelArr LB N l) / get_size LB l = k ∧
    (nodePos LB N l k + r - levelArr LB N l) % get_size LB l = r := by
  unfold nodePos
  have hd : levelArr LB N l + get_size LB l * k + r - levelArr LB N l =
      get_size LB l * k + r := by omega
  rw [hd]
  constructor
  · rw [Nat.add_comm, Nat.add_mul_div_left _ _ (by have := get_size_pos LB l; omega),
      Nat.div_eq_of_lt hr]
    omega
  · rw [Nat.add_comm, Nat.add_mul_mod_self_left, Nat.mod_eq_of_lt hr]

theorem specUpTo_at {LB N : Nat} (v : Nat → Nat) {l k r : Nat} (l2 kk : Nat)
    (hl : l < levels N) (hk : k < cnt N l) (hr : r < get_size LB l) :
    specUpTo LB N v l2 kk (nodePos LB N l k + r) =
      if l < l2 ∨ (l = l2 ∧ k < kk) then nodeVal v l k / 256 ^ r % 256 else 0 := by
  have h1 : levelArr LB N l ≤ nodePos LB N l k + r := by
    unfold nodePos
    omega
  have h2 : nodePos LB N l k + r < levelArr LB N (l + 1) := nodePos_add_lt hk hr
  have h3 : nodePos LB N l k + r < levelArr LB N (levels N) :=
    lt_of_lt_of_le h2 (levelArr_mono LB N (by omega))
  have hLof : levelOf LB N (nodePos LB N l k + r) = l := levelOf_eq hl h1 h2
  have hdm := @owner_div_mod LB N l k r hr
  unfold specUpTo
  rw [if_pos h3, hLof, hdm.1, hdm.2]

theorem specUpTo_out {LB N : Nat} (v : Nat → Nat) (l2 kk q : Nat)
    (h : levelArr LB N (levels N) ≤ q) : specUpTo LB N v l2 kk q = 0 := by
  unfold specUpTo
  rw [if_neg (by omega)]

theorem bytesLt_specUpTo (LB N : Nat) (v : Nat → Nat) (l2 kk : Nat) :
    bytesLt (specUpTo LB N v l2 kk) := by
  intro q
  unfold specUpTo
  split
  · split
    · exact Nat.mod_lt _ (by omega)
    · omega
  · omega

end dyn

namespace dyn

/-! ### Interval sums -/

theorem rangeSum_nil (v : Nat → Nat) {a b : Nat} (h : b ≤ a) :
    rangeSum v a b = 0 := by
  unfold rangeSum
  rw [show b - a = 0 from by omega]
  rfl

theorem rangeSum_succ (v : Nat → Nat) {a b : Nat} (h : a ≤ b) :
    rangeSum v a (b + 1) = rangeSum v a b + v b := by
  unfold rangeSum
  rw [show b + 1 - a = (b - a) + 1 from by omega, List.range_succ,
    List.map_append, List.sum_append]
  simp only [List.map_cons, List.map_nil, List.sum_cons, List.sum_nil]
  rw [show a + (b - a) = b from by omega]
  omega

theorem rangeSum_append (v : Nat → Nat) {a b c : Nat} (hab : a ≤ b) (hbc : b ≤ c) :
    rangeSum v a b + rangeSum v b c = rangeSum v a c := by
  induction c, hbc using Nat.le_induction with
  | base =>
    rw [rangeSum_nil v (Nat.le_refl b)]
    omega
  | succ c hc ih =>
    rw [rangeSum_succ v hc, rangeSum_succ v (le_trans hab hc), ← ih]
    omega

theorem rangeSum_le (v : Nat → Nat) {a b c : Nat}
    (h : ∀ i, a ≤ i → i < b → v i ≤ c) : rangeSum v a b ≤ (b - a) * c := by
  induction b with
  | zero =>
    rw [rangeSum_nil v (by omega)]
    omega
  | succ b ih =>
    rcases Nat.lt_or_ge b a with hba | hba
    · rw [rangeSum_nil v (by omega)]
      omega
    · rw [rangeSum_succ v hba]
      have h1 := ih (fun i hi1 hi2 => h i hi1 (by omega))
      have h2 := h b hba (by omega)
      have h3 : (b + 1 - a) * c = (b - a) * c + c := by
        rw [show b + 1 - a = (b - a) + 1 from by omega]
        ring
      omega

theorem psum_mono (v : Nat → Nat) {a b : Nat} (h : a ≤ b) :
    psum v a ≤ psum v b := by
  unfold psum
  have := rangeSum_append v (Nat.zero_le a) h
  omega

theorem rangeSum_ge_first (v : Nat → Nat) {a b : Nat} (h : a < b) :
    v a ≤ rangeSum v a b := by
  have h1 : rangeSum v a (a + 1) = v a := by
    rw [rangeSum_succ v (Nat.le_refl a), rangeSum_nil v (Nat.le_refl a)]
    omega
  have h2 := rangeSum_append v (show a ≤ a + 1 from by omega)
    (show a + 1 ≤ b from by omega)
  omega

theorem nodeVal_psum (v : Nat → Nat) (l k : Nat) :
    psum v (2 * k * 2 ^ l) + nodeVal v l k = psum v ((2 * k + 1) * 2 ^ l) := by
  unfold psum nodeVal
  rw [show (2 * k + 1) * 2 ^ l = 2 * k * 2 ^ l + 2 ^ l from by ring]
  exact rangeSum_append v (Nat.zero_le _) (Nat.le_add_right _ _)

theorem nodeVal_le {LB N : Nat} {v : Nat → Nat}
    (hv : ∀ i, i < N → v i ≤ 2 ^ (LB - 1)) (hLB : 1 ≤ LB) {l k : Nat}
    (hn : (2 * k + 1) * 2 ^ l ≤ N) : nodeVal v l k ≤ 2 ^ (LB + l - 1) := by
  unfold nodeVal
  have hmul : 2 * k * 2 ^ l + 2 ^ l = (2 * k + 1) * 2 ^ l := by ring
  have hb : ∀ i, 2 * k * 2 ^ l ≤ i → i < 2 * k * 2 ^ l + 2 ^ l →
      v i ≤ 2 ^ (LB - 1) := by
    intro i h1 h2
    exact hv i (by omega)
  have h1 := rangeSum_le v hb
  rw [Nat.add_sub_cancel_left] at h1
  calc rangeSum v (2 * k * 2 ^ l) (2 * k * 2 ^ l + 2 ^ l) ≤
      2 ^ l * 2 ^ (LB - 1) := h1
    _ = 2 ^ (LB + l - 1) := by
        rw [← pow_add]
        congr 1
        omega

theorem nodeVal_lt_mask {LB N : Nat} {v : Nat → Nat}
    (hv : ∀ i, i < N → v i ≤ 2 ^ (LB - 1)) (hLB : 1 ≤ LB) {l k : Nat}
    (hn : (2 * k + 1) * 2 ^ l ≤ N) :
    nodeVal v l k < 256 ^ get_size LB l := by
  have h1 := nodeVal_le hv hLB hn
  have h2 := get_size_ge LB l
  calc nodeVal v l k ≤ 2 ^ (LB + l - 1) := h1
    _ < 2 ^ (8 * get_size LB l) := Nat.pow_lt_pow_right (by omega) (by omega)
    _ = 256 ^ get_size LB l := (pow256_eq _).symm

theorem readNode_specUpTo {LB N : Nat} (v : Nat → Nat) {l k : Nat} (l2 kk : Nat)
    (hl : l < levels N) (hk : k < cnt N l) (hsz : get_size LB l ≤ 8)
    (hfit : nodeVal v l k < 256 ^ get_size LB l)
    (hw : l < l2 ∨ (l = l2 ∧ k < kk)) :
    readNode LB N (specUpTo LB N v l2 kk) l k = nodeVal v l k := by
  unfold readNode
  rw [byteMask_eq _ hsz, land_mask_mod, ← pow256_eq,
    load64_mod (bytesLt_specUpTo LB N v l2 kk) hsz]
  have he : dsum (fun j => specUpTo LB N v l2 kk (nodePos LB N l k + j))
      (get_size LB l) = dsum (fun j => nodeVal v l k / 256 ^ j % 256)
      (get_size LB l) := by
    apply dsum_congr
    intro j hj
    rw [specUpTo_at v l2 kk hl hk hj, if_pos hw]
  rw [he, dsum_digits_of_lt hfit]

end dyn

namespace dyn

/-! ### Correctness of the constructor -/

theorem mul_pred_div {B Q : Nat} (hB : 1 ≤ B) (hQ : 1 ≤ Q) :
    (B * Q - 1) / B = Q - 1 := by
  have h1 : B * Q - 1 = (B - 1) + B * (Q - 1) := by
    have : B * Q = B + B * (Q - 1) := by
      rw [Nat.mul_sub_one]
      have h2 : B ≤ B * Q := Nat.le_mul_of_pos_right B hQ
      omega
    omega
  rw [h1, Nat.add_mul_div_left _ _ (by omega : 0 < B),
    Nat.div_eq_of_lt (by omega : B - 1 < B)]
  omega

theorem buildVal_spec {LB N : Nat} {v : Nat → Nat}
    (hLB : 1 ≤ LB) (hv : ∀ i, i < N → v i ≤ 2 ^ (LB - 1))
    (hsz : ∀ h, h < levels N → get_size LB h ≤ 8) {l k : Nat} (kk : Nat)
    (hl : l < levels N) (hk : k < cnt N l) :
    buildVal LB N (specUpTo LB N v l kk) v l ((2 * k + 1) * 2 ^ l) =
      nodeVal v l k := by
  have hn : (2 * k + 1) * 2 ^ l ≤ N := (node_le_iff N l k).mpr hk
  have hstep : ∀ j, j ≤ l →
      (List.range j).foldl
        (fun acc j2 => acc + readNode LB N (specUpTo LB N v l kk) j2
          ((((2 * k + 1) * 2 ^ l) - 1) / 2 ^ (j2 + 1)))
        (v ((2 * k + 1) * 2 ^ l - 1)) =
      rangeSum v ((2 * k + 1) * 2 ^ l - 2 ^ j) ((2 * k + 1) * 2 ^ l) := by
    intro j
    induction j with
    | zero =>
      intro _
      simp only [List.range_zero, List.foldl_nil, pow_zero]
      have hone : 1 ≤ (2 * k + 1) * 2 ^ l :=
        Nat.mul_pos (by omega) (Nat.pos_pow_of_pos _ (by omega))
      rw [show (2 * k + 1) * 2 ^ l = ((2 * k + 1) * 2 ^ l - 1) + 1 from by omega]
      rw [rangeSum_succ v (by omega), rangeSum_nil v (by omega)]
      simp
    | succ j ih =>
      intro hj
      rw [List.range_succ, List.foldl_append, List.foldl_cons, List.foldl_nil,
        ih (by omega)]
      -- the child read at level j
      have hQpos : 1 ≤ (2 * k + 1) * 2 ^ (l - j - 1) :=
        Nat.mul_pos (by omega) (Nat.pos_pow_of_pos _ (by omega))
      have hB : (1:Nat) ≤ 2 ^ (j + 1) := Nat.one_le_two_pow
      have hnn : (2 * k + 1) * 2 ^ l =
          2 ^ (j + 1) * ((2 * k + 1) * 2 ^ (l - j - 1)) := by
        rw [show (2 * k + 1) * 2 ^ l = (2 * k + 1) * (2 ^ (j + 1) * 2 ^ (l - j - 1))
          from by rw [← pow_add]; congr 2; omega]
        ring
      have hidx : ((2 * k + 1) * 2 ^ l - 1) / 2 ^ (j + 1) =
          (2 * k + 1) * 2 ^ (l - j - 1) - 1 := by
        rw [hnn]
        exact mul_pred_div hB hQpos
      -- the child is the node n - 2^j of level j
      have hchild : (2 * ((2 * k + 1) * 2 ^ (l - j - 1) - 1) + 1) * 2 ^ j =
          (2 * k + 1) * 2 ^ l - 2 ^ j := by
        have h2 : (2 * ((2 * k + 1) * 2 ^ (l - j - 1) - 1) + 1) * 2 ^ j =
            2 * ((2 * k + 1) * 2 ^ (l - j - 1)) * 2 ^ j - 2 ^ j := by
          have h3 : 2 * ((2 * k + 1) * 2 ^ (l - j - 1) - 1) + 1 =
              2 * ((2 * k + 1) * 2 ^ (l - j - 1)) - 1 := by omega
          rw [h3, Nat.sub_one_mul]
        rw [h2]
        congr 1
        rw [hnn]
        ring
      have hchild_le : (2 * ((2 * k + 1) * 2 ^ (l - j - 1) - 1) + 1) * 2 ^ j ≤ N := by
        rw [hchild]
        have : (2:Nat) ^ j ≤ (2 * k + 1) * 2 ^ l := by
          calc (2:Nat) ^ j ≤ 2 ^ l := Nat.pow_le_pow_right (by omega) (by omega)
            _ ≤ (2 * k + 1) * 2 ^ l := Nat.le_mul_of_pos_left _ (by omega)
        omega
      have hkj : (2 * k + 1) * 2 ^ (l - j - 1) - 1 < cnt N j :=
        (node_le_iff N j _).mp hchild_le
      have hread : readNode LB N (specUpTo LB N v l kk) j
          ((2 * k + 1) * 2 ^ (l - j - 1) - 1) =
          nodeVal v j ((2 * k + 1) * 2 ^ (l - j - 1) - 1) := by
        apply readNode_specUpTo v l kk (by omega) hkj (hsz j (by omega))
          (nodeVal_lt_mask hv hLB hchild_le)
        exact Or.inl (by omega)
      rw [hidx, hread]
      -- assemble the interval sums
      have hval : nodeVal v j ((2 * k + 1) * 2 ^ (l - j - 1) - 1) =
          rangeSum v ((2 * k + 1) * 2 ^ l - 2 ^ (j + 1))
            ((2 * k + 1) * 2 ^ l - 2 ^ j) := by
        unfold nodeVal
        have h1 : 2 * ((2 * k + 1) * 2 ^ (l - j - 1) - 1) * 2 ^ j =
            (2 * k + 1) * 2 ^ l - 2 ^ (j + 1) := by
          have h2 : 2 * ((2 * k + 1) * 2 ^ (l - j - 1) - 1) * 2 ^ j =
              2 * ((2 * k + 1) * 2 ^ (l - j - 1)) * 2 ^ j - 2 * 2 ^ j := by
            have h3 : 2 * ((2 * k + 1) * 2 ^ (l - j - 1) - 1) =
                2 * ((2 * k + 1) * 2 ^ (l - j - 1)) - 2 := by omega
            rw [h3, Nat.sub_mul]
          rw [h2]
          congr 1
          · rw [hnn]
            ring
          · rw [pow_succ]
            ring
        rw [h1]
        congr 1
        have h5 : (2:Nat) ^ (j + 1) ≤ (2 * k + 1) * 2 ^ l := by
          calc (2:Nat) ^ (j + 1) ≤ 2 ^ l := Nat.pow_le_pow_right (by omega) (by omega)
            _ ≤ (2 * k + 1) * 2 ^ l := Nat.le_mul_of_pos_left _ (by omega)
        have h6 : (2:Nat) ^ (j + 1) = 2 ^ j + 2 ^ j := by
          rw [pow_succ]
          ring
        omega
      rw [hval]
      have hle1 : (2 * k + 1) * 2 ^ l - 2 ^ (j + 1) ≤
          (2 * k + 1) * 2 ^ l - 2 ^ j := by
        have : (2:Nat) ^ j ≤ 2 ^ (j + 1) := Nat.pow_le_pow_right (by omega) (by omega)
        omega
      have hle2 : (2 * k + 1) * 2 ^ l - 2 ^ j ≤ (2 * k + 1) * 2 ^ l := by omega
      rw [Nat.add_comm]
      exact rangeSum_append v hle1 hle2
  have := hstep l (Nat.le_refl l)
  unfold buildVal
  rw [this]
  unfold nodeVal
  congr 1
  · have : (2:Nat) ^ l ≤ (2 * k + 1) * 2 ^ l := Nat.le_mul_of_pos_left _ (by omega)
    have h2 : 2 * k * 2 ^ l + 2 ^ l = (2 * k + 1) * 2 ^ l := by ring
    omega
  · have h2 : 2 * k * 2 ^ l + 2 ^ l = (2 * k + 1) * 2 ^ l := by ring
    omega

end dyn

namespace dyn

theorem owner_decomp {LB N q : Nat} (hq : q < levelArr LB N (levels N)) :
    ∃ l0 k0 r0, l0 < levels N ∧ k0 < cnt N l0 ∧ r0 < get_size LB l0 ∧
      q = nodePos LB N l0 k0 + r0 := by
  obtain ⟨l, hl, h1, h2⟩ := exists_owner LB N hq
  have hW := get_size_pos LB l
  refine ⟨l, (q - levelArr LB N l) / get_size LB l,
    (q - levelArr LB N l) % get_size LB l, hl, ?_, Nat.mod_lt _ (by omega), ?_⟩
  · rw [Nat.div_lt_iff_lt_mul (by omega)]
    have h3 : levelArr LB N (l + 1) = levelArr LB N l + cnt N l * get_size LB l := rfl
    omega
  · unfold nodePos
    have := Nat.div_add_mod (q - levelArr LB N l) (get_size LB l)
    omega

theorem buildStep_spec {LB N : Nat} {v : Nat → Nat}
    (hLB : 1 ≤ LB) (hv : ∀ i, i < N → v i ≤ 2 ^ (LB - 1))
    (hsz : ∀ h, h < levels N → get_size LB h ≤ 8) {l k : Nat}
    (hl : l < levels N) (hk : k < cnt N l) :
    buildStep LB N v l (specUpTo LB N v l k) k = specUpTo LB N v l (k + 1) := by
  have hn : (2 * k + 1) * 2 ^ l ≤ N := (node_le_iff N l k).mpr hk
  have hfit : nodeVal v l k < 256 ^ get_size LB l := nodeVal_lt_mask hv hLB hn
  funext q
  unfold buildStep
  rw [buildVal_spec hLB hv hsz k hl hk]
  rw [writeNode_read (bytesLt_specUpTo LB N v l k) (hsz l hl) hfit q]
  by_cases hwin : nodePos LB N l k ≤ q ∧ q < nodePos LB N l k + get_size LB l
  · rw [if_pos hwin]
    have hr : q - nodePos LB N l k < get_size LB l := by omega
    conv_rhs => rw [show q = nodePos LB N l k + (q - nodePos LB N l k) from by omega]
    rw [specUpTo_at v l (k + 1) hl hk hr, if_pos (Or.inr ⟨rfl, by omega⟩)]
  · rw [if_neg hwin]
    rcases Nat.lt_or_ge q (levelArr LB N (levels N)) with hq | hq
    · obtain ⟨l0, k0, r0, hol, hok, hor, rfl⟩ := @owner_decomp LB N q hq
      rw [specUpTo_at v l k hol hok hor, specUpTo_at v l (k + 1) hol hok hor]
      have hne : ¬(l0 = l ∧ k0 = k) := by
        intro he
        obtain ⟨he1, he2⟩ := he
        subst he1
        subst he2
        exact hwin ⟨Nat.le_add_right _ _, by omega⟩
      have hiff : (l0 < l ∨ (l0 = l ∧ k0 < k)) ↔
          (l0 < l ∨ (l0 = l ∧ k0 < k + 1)) := by
        constructor
        · intro h
          rcases h with h | ⟨h1, h2⟩
          · exact Or.inl h
          · exact Or.inr ⟨h1, by omega⟩
        · intro h
          rcases h with h | ⟨h1, h2⟩
          · exact Or.inl h
          · have : k0 ≠ k := fun hc => hne ⟨h1, hc⟩
            exact Or.inr ⟨h1, by omega⟩
      exact if_congr hiff rfl rfl
    · rw [specUpTo_out v l k _ hq, specUpTo_out v l (k + 1) _ hq]

theorem buildLevel_spec {LB N : Nat} {v : Nat → Nat}
    (hLB : 1 ≤ LB) (hv : ∀ i, i < N → v i ≤ 2 ^ (LB - 1))
    (hsz : ∀ h, h < levels N → get_size LB h ≤ 8) {l : Nat}
    (hl : l < levels N) :
    buildLevel LB N v l (specUpTo LB N v l 0) = specUpTo LB N v l (cnt N l) := by
  unfold buildLevel
  have hstep : ∀ k, k ≤ cnt N l →
      (List.range k).foldl (buildStep LB N v l) (specUpTo LB N v l 0) =
        specUpTo LB N v l k := by
    intro k
    induction k with
    | zero => intro _; rfl
    | succ k ih =>
      intro hk
      rw [List.range_succ, List.foldl_append, List.foldl_cons, List.foldl_nil,
        ih (by omega)]
      exact buildStep_spec hLB hv hsz hl (by omega)
  exact hstep (cnt N l) (Nat.le_refl _)

theorem specUpTo_zero (LB N : Nat) (v : Nat → Nat) :
    specUpTo LB N v 0 0 = fun _ => 0 := by
  funext q
  unfold specUpTo
  split
  · rw [if_neg (by
      intro h
      rcases h with h | ⟨_, h⟩ <;> exact absurd h (Nat.not_lt_zero _))]
  · rfl

theorem specUpTo_levelStep (LB N : Nat) (v : Nat → Nat) {l : Nat}
    (hl : l < levels N) :
    specUpTo LB N v l (cnt N l) = specUpTo LB N v (l + 1) 0 := by
  funext q
  rcases Nat.lt_or_ge q (levelArr LB N (levels N)) with hq | hq
  · obtain ⟨l0, k0, r0, hol, hok, hor, rfl⟩ := @owner_decomp LB N q hq
    rw [specUpTo_at v l (cnt N l) hol hok hor,
      specUpTo_at v (l + 1) 0 hol hok hor]
    apply if_congr ?_ rfl rfl
    constructor
    · intro h
      left
      rcases h with h | ⟨h1, _⟩ <;> omega
    · intro h
      have hlt : l0 < l + 1 := by
        rcases h with h | ⟨h1, h2⟩ <;> omega
      rcases Nat.lt_or_ge l0 l with h2 | h2
      · exact Or.inl h2
      · have he : l0 = l := by omega
        subst he
        exact Or.inr ⟨rfl, hok⟩
  · rw [specUpTo_out v l (cnt N l) _ hq, specUpTo_out v (l + 1) 0 _ hq]

/-- The master storage theorem: the buffer the constructor builds is exactly
`byteSpec` — every byte of every node region holds the corresponding
little-endian digit of the node's intended value (the sum of its range of
increments), and all slack bytes are zero. -/
theorem byteTree_eq_spec {LB N : Nat} {v : Nat → Nat} (hLB : 1 ≤ LB)
    (hv : ∀ i, i < N → v i ≤ 2 ^ (LB - 1)) (h64 : LB + levels N ≤ 65) :
    byteTree LB N v = byteSpec LB N v := by
  have hsz : ∀ h, h < levels N → get_size LB h ≤ 8 := fun h hh =>
    get_size_le LB h (by omega)
  unfold byteTree byteSpec
  have hfold : ∀ L, L ≤ levels N →
      (List.range L).foldl (fun m l => buildLevel LB N v l m) (fun _ => 0) =
        specUpTo LB N v L 0 := by
    intro L
    induction L with
    | zero => intro _; exact (specUpTo_zero LB N v).symm
    | succ L ih =>
      intro hL
      rw [List.range_succ, List.foldl_append, List.foldl_cons, List.foldl_nil,
        ih (by omega), buildLevel_spec hLB hv hsz (by omega),
        specUpTo_levelStep LB N v (by omega)]
  exact hfold (levels N) (Nat.le_refl _)

end dyn

namespace dyn

/-! ### Correctness of `get` (prefix sums) -/

theorem readNode_byteSpec {LB N : Nat} (v : Nat → Nat) (hLB : 1 ≤ LB)
    (hv : ∀ i, i < N → v i ≤ 2 ^ (LB - 1))
    (hsz : ∀ h, h < levels N → get_size LB h ≤ 8) {l k : Nat}
    (hl : l < levels N) (hk : k < cnt N l) :
    readNode LB N (byteSpec LB N v) l k = nodeVal v l k := by
  unfold byteSpec
  exact readNode_specUpTo v (levels N) 0 hl hk (hsz l hl)
    (nodeVal_lt_mask hv hLB ((node_le_iff N l k).mpr hk)) (Or.inl hl)

theorem lt_levels_of_node_le {N t k : Nat} (h : (2 * k + 1) * 2 ^ t ≤ N) :
    t < levels N := by
  have h2 : (2:Nat) ^ t ≤ N := le_trans (Nat.le_mul_of_pos_left _ (by omega)) h
  have hN : 1 ≤ N := le_trans Nat.one_le_two_pow h2
  have h3 := (find_last_set_spec N hN).2
  by_contra hcon
  push_neg at hcon
  have h4 : (2:Nat) ^ levels N ≤ 2 ^ t := Nat.pow_le_pow_right (by omega) hcon
  unfold levels at h4 hcon
  omega

theorem getLoop_spec {LB N : Nat} {v m : Nat → Nat}
    (hm : ∀ l k, l < levels N → k < cnt N l → readNode LB N m l k = nodeVal v l k)
    {y : Nat} (hyN : y ≤ N) :
    ∀ fuel s x acc : Nat, x = y / 2 ^ s * 2 ^ s → y % 2 ^ s ≠ 0 →
      y % 2 ^ s ≤ fuel → getLoop LB N m y fuel x acc = acc + rangeSum v x y := by
  intro fuel
  induction fuel with
  | zero =>
    intro s x acc _ h2 h3
    omega
  | succ fuel ih =>
    intro s x acc hx hr0 hrle
    have hps : 0 < (2:Nat) ^ s := Nat.pos_pow_of_pos _ (by omega)
    obtain ⟨c, hc⟩ : ∃ c, y / 2 ^ s = c := ⟨_, rfl⟩
    obtain ⟨r, hr⟩ : ∃ r, y % 2 ^ s = r := ⟨_, rfl⟩
    have hrlt : r < 2 ^ s := by
      rw [← hr]
      exact Nat.mod_lt _ hps
    have hrpos : 1 ≤ r := by omega
    have hy : y = 2 ^ s * c + r := by
      have := Nat.div_add_mod y (2 ^ s)
      rw [hc, hr] at this
      omega
    have hxc : x = 2 ^ s * c := by
      rw [hx, hc]
      ring
    have hxor : y ^^^ x = r := by
      rw [hxc]
      conv_lhs => rw [hy]
      exact xor_high_low c hrlt
    have ht := lg_spec r hrpos
    obtain ⟨t, htdef⟩ : ∃ t, lg r = t := ⟨_, rfl⟩
    rw [htdef] at ht
    have hts : t < s := by
      by_contra hcon
      push_neg at hcon
      have : (2:Nat) ^ s ≤ 2 ^ t := Nat.pow_le_pow_right (by omega) hcon
      omega
    have hmls : mask_last_set r = 2 ^ t := by
      unfold mask_last_set
      rw [if_neg (by omega), htdef]
    obtain ⟨mm, hmm⟩ : ∃ mm, c * 2 ^ (s - t - 1) = mm := ⟨_, rfl⟩
    have hxmm : x = 2 * mm * 2 ^ t := by
      rw [hxc, ← hmm]
      rw [show (2:Nat) ^ s = 2 ^ (s - t - 1) * (2 * 2 ^ t) from by
        rw [show 2 * 2 ^ t = 2 ^ (t + 1) from by rw [pow_succ]; ring, ← pow_add]
        congr 1
        omega]
      ring
    have hx2 : x + 2 ^ t = (2 * mm + 1) * 2 ^ t := by
      rw [hxmm]
      ring
    have hx2pos : 1 ≤ (2 * mm + 1) * 2 ^ t :=
      Nat.mul_pos (by omega) (Nat.pos_pow_of_pos _ (by omega))
    have hffs : find_first_set (x + 2 ^ t) - 1 = t := by
      rw [hx2]
      unfold find_first_set
      rw [if_neg (by omega), ctz_odd_mul_pow]
      omega
    have hx2y : x + 2 ^ t ≤ y := by
      have h1 : y = x + r := by
        rw [hxc]
        omega
      have h2 : 2 ^ t ≤ r := ht.1
      omega
    have hnodele : (2 * mm + 1) * 2 ^ t ≤ N := by
      rw [← hx2]
      omega
    have htlev : t < levels N := lt_levels_of_node_le hnodele
    have hkcnt : mm < cnt N t := (node_le_iff N t mm).mp hnodele
    have hidx : (x + 2 ^ t) / 2 ^ (1 + t) = mm := by
      rw [hx2]
      rw [show (2:Nat) ^ (1 + t) = 2 ^ t * 2 from by rw [pow_add]; ring]
      rw [show (2 * mm + 1) * 2 ^ t = 2 ^ t * (2 * mm + 1) from by ring]
      rw [Nat.mul_div_mul_left _ _ (Nat.pos_pow_of_pos _ (by omega))]
      omega
    have hread : readNode LB N m (find_first_set (x + 2 ^ t) - 1)
        ((x + 2 ^ t) / 2 ^ (1 + (find_first_set (x + 2 ^ t) - 1))) =
        rangeSum v x (x + 2 ^ t) := by
      rw [hffs, hidx, hm t mm htlev hkcnt]
      unfold nodeVal
      rw [← hxmm]
    obtain ⟨r2, hr2⟩ : ∃ r2, r - 2 ^ t = r2 := ⟨_, rfl⟩
    have hr2lt : r2 < 2 ^ t := by
      have := ht.2
      rw [pow_succ] at this
      omega
    have hy2 : y = 2 ^ t * (2 * mm + 1) + r2 := by
      have h1 : y = x + r := by
        rw [hxc]
        omega
      have h2 : 2 ^ t * (2 * mm + 1) = x + 2 ^ t := by
        rw [hxmm]
        ring
      have h3 : 2 ^ t ≤ r := ht.1
      omega
    have hy2div : y / 2 ^ t = 2 * mm + 1 := by
      rw [hy2, Nat.mul_add_div (Nat.pos_pow_of_pos _ (by omega)),
        Nat.div_eq_of_lt hr2lt]
    have hy2mod : y % 2 ^ t = r2 := by
      rw [hy2, Nat.mul_add_mod, Nat.mod_eq_of_lt hr2lt]
    have hxor2 : y ^^^ (x + 2 ^ t) = r2 := by
      rw [hx2]
      conv_lhs => rw [hy2]
      rw [show (2 * mm + 1) * 2 ^ t = 2 ^ t * (2 * mm + 1) from by ring]
      exact xor_high_low (2 * mm + 1) hr2lt
    show (if y ^^^ (x + mask_last_set (y ^^^ x)) = 0 then _ else _) = _
    rw [show x + mask_last_set (y ^^^ x) = x + 2 ^ t from by rw [hxor, hmls]]
    rw [hxor2]
    by_cases hz : r2 = 0
    · rw [if_pos hz, hread]
      have hyx2 : y = x + 2 ^ t := by
        have h2 : 2 ^ t * (2 * mm + 1) = x + 2 ^ t := by
          rw [hxmm]
          ring
        omega
      rw [hyx2]
    · rw [if_neg hz, hread]
      rw [ih t (x + 2 ^ t) (acc + rangeSum v x (x + 2 ^ t))
        (by rw [hy2div, hx2]) (by rw [hy2mod]; exact hz)
        (by rw [hy2mod]; have := ht.1; omega)]
      rw [Nat.add_assoc]
      congr 1
      exact rangeSum_append v (by omega) hx2y

end dyn

namespace dyn

theorem get_correct {LB N : Nat} {v : Nat → Nat} (hLB : 1 ≤ LB)
    (hv : ∀ i, i < N → v i ≤ 2 ^ (LB - 1)) (h64 : LB + levels N ≤ 65)
    {i : Nat} (hi : i < N) :
    get LB N (byteTree LB N v) i = psum v (i + 1) := by
  rw [byteTree_eq_spec hLB hv h64]
  unfold get
  have hsz : ∀ h, h < levels N → get_size LB h ≤ 8 := fun h hh =>
    get_size_le LB h (by omega)
  have hm : ∀ l k, l < levels N → k < cnt N l →
      readNode LB N (byteSpec LB N v) l k = nodeVal v l k := fun l k hl hk =>
    readNode_byteSpec v hLB hv hsz hl hk
  have h1 : i + 1 < 2 ^ (i + 1) := Nat.lt_two_pow _
  rw [getLoop_spec hm (by omega) (i + 1) (i + 1) 0 0
    (by rw [Nat.div_eq_of_lt h1, Nat.zero_mul])
    (by rw [Nat.mod_eq_of_lt h1]; omega) (by rw [Nat.mod_eq_of_lt h1])]
  unfold psum
  omega

/-! ### Correctness of `find` -/

theorem sub1_64_eq {n : Nat} (h1 : 1 ≤ n) (h2 : n < U64) :
    sub1_64 n = n - 1 := by
  unfold sub1_64 U64 at *
  rw [show n + (2 ^ 64 - 1) = (n - 1) + 2 ^ 64 from by omega,
    Nat.add_mod_right, Nat.mod_eq_of_lt (by omega)]

theorem sub1_64_zero : sub1_64 0 = U64 - 1 := by
  unfold sub1_64 U64
  decide

theorem u64sub_eq {a b : Nat} (hb : b ≤ a) (ha : a < U64) :
    u64sub a b = a - b := by
  unfold u64sub U64 at *
  rw [show b % 2 ^ 64 = b from Nat.mod_eq_of_lt (by omega),
    show 2 ^ 64 + a - b = (a - b) + 2 ^ 64 from by omega, Nat.add_mod_right,
    Nat.mod_eq_of_lt (by omega)]

theorem findLoop_succ (LB N : Nat) (m : Nat → Nat) (cmpl : Bool)
    (hs node idx val : Nat) :
    findLoop LB N m cmpl (hs + 1) node idx val =
      if probeVal LB N m cmpl hs idx ≤ val then
        findLoop LB N m cmpl hs (node + 2 ^ hs) (2 * idx + 1)
          (val - probeVal LB N m cmpl hs idx)
      else findLoop LB N m cmpl hs node (2 * idx) val := rfl

theorem naiveFindLoop_succ (N : Nat) (v : Nat → Nat) (hs node idx val : Nat) :
    naiveFindLoop N v (hs + 1) node idx val =
      if naiveProbe N v hs idx ≤ val then
        naiveFindLoop N v hs (node + 2 ^ hs) (2 * idx + 1)
          (val - naiveProbe N v hs idx)
      else naiveFindLoop N v hs node (2 * idx) val := rfl

theorem find_eq (LB N : Nat) (m : Nat → Nat) (val : Nat) :
    find LB N m val =
      if (findLoop LB N m false (levels N) 0 0 val).1 ≤ N then
        sub1_64 (findLoop LB N m false (levels N) 0 0 val).1
      else N - 1 := rfl

theorem find_complement_eq (LB N : Nat) (m : Nat → Nat) (val : Nat) :
    find_complement LB N m val =
      if (findLoop LB N m true (levels N) 0 0 val).1 ≤ N then
        sub1_64 (findLoop LB N m true (levels N) 0 0 val).1
      else N - 1 := rfl

theorem naiveFind_eq (N : Nat) (v : Nat → Nat) (val : Nat) :
    naiveFind N v val =
      if (naiveFindLoop N v (levels N) 0 0 val).1 ≤ N then
        sub1_64 (naiveFindLoop N v (levels N) 0 0 val).1
      else N - 1 := rfl

theorem probeVal_in {LB N : Nat} (m : Nat → Nat) {hs idx : Nat}
    (h : levelArr LB N hs + get_size LB hs * idx < levelArr LB N (levels N)) :
    probeVal LB N m false hs idx = readNode LB N m hs idx := by
  show probeRaw LB N m hs idx = _
  unfold probeRaw readNode nodePos
  rw [if_neg (show ¬(levelArr LB N (levels N) ≤
    levelArr LB N hs + get_size LB hs * idx) from by omega)]

theorem probeVal_in_compl {LB N : Nat} (m : Nat → Nat) {hs idx : Nat}
    (h : levelArr LB N hs + get_size LB hs * idx < levelArr LB N (levels N)) :
    probeVal LB N m true hs idx =
      u64sub (2 ^ (LB + hs - 1) % U64) (readNode LB N m hs idx) := by
  show u64sub (2 ^ (LB + hs - 1) % U64) (probeRaw LB N m hs idx) = _
  unfold probeRaw readNode nodePos
  rw [if_neg (show ¬(levelArr LB N (levels N) ≤
    levelArr LB N hs + get_size LB hs * idx) from by omega)]

theorem bp_lt_of_cand_le {LB N hs idx : Nat}
    (hcle : (2 * idx + 1) * 2 ^ hs ≤ N) :
    levelArr LB N hs + get_size LB hs * idx < levelArr LB N (levels N) := by
  have hkc : idx < cnt N hs := (node_le_iff N hs idx).mp hcle
  have hhlev : hs < levels N := lt_levels_of_node_le hcle
  have h1 : nodePos LB N hs idx + 0 < levelArr LB N (hs + 1) :=
    nodePos_add_lt hkc (by have := get_size_pos LB hs; omega)
  have h2 : levelArr LB N (hs + 1) ≤ levelArr LB N (levels N) :=
    levelArr_mono LB N (by omega)
  unfold nodePos at h1
  omega

theorem findLoop_fst_ge (LB N : Nat) (m : Nat → Nat) (cmpl : Bool) :
    ∀ hs node idx val, node ≤ (findLoop LB N m cmpl hs node idx val).1 := by
  intro hs
  induction hs with
  | zero => intro node idx val; exact Nat.le_refl _
  | succ hs ih =>
    intro node idx val
    rw [findLoop_succ]
    split
    · exact le_trans (Nat.le_add_right _ _) (ih (node + 2 ^ hs) (2 * idx + 1) _)
    · exact ih node (2 * idx) val

theorem findLoop_ge_total {LB N : Nat} {v m : Nat → Nat}
    (hm : ∀ l k, l < levels N → k < cnt N l → readNode LB N m l k = nodeVal v l k) :
    ∀ hs node idx val, node = idx * 2 ^ hs → node ≤ N → N < node + 2 ^ hs →
      psum v N - psum v node ≤ val →
      (findLoop LB N m false hs node idx val).1 = N ∨
        N < (findLoop LB N m false hs node idx val).1 := by
  intro hs
  induction hs with
  | zero =>
    intro node idx val _ h2 h3 _
    left
    show node = N
    omega
  | succ hs ih =>
    intro node idx val hnode hle hlt hval
    rw [findLoop_succ]
    rcases Nat.lt_or_ge N (node + 2 ^ hs) with hc | hc
    · by_cases hpv : probeVal LB N m false hs idx ≤ val
      · rw [if_pos hpv]
        right
        have h1 := findLoop_fst_ge LB N m false hs (node + 2 ^ hs) (2 * idx + 1)
          (val - probeVal LB N m false hs idx)
        omega
      · rw [if_neg hpv]
        exact ih node (2 * idx) val (by rw [hnode, pow_succ]; ring) hle hc hval
    · have hcand : (2 * idx + 1) * 2 ^ hs = node + 2 ^ hs := by
        rw [hnode, pow_succ]
        ring
      have hcle : (2 * idx + 1) * 2 ^ hs ≤ N := by omega
      have hkc : idx < cnt N hs := (node_le_iff N hs idx).mp hcle
      have hhlev : hs < levels N := lt_levels_of_node_le hcle
      rw [probeVal_in m (bp_lt_of_cand_le hcle), hm hs idx hhlev hkc]
      have hnv : psum v node + nodeVal v hs idx = psum v (node + 2 ^ hs) := by
        have h2 := nodeVal_psum v hs idx
        rw [show 2 * idx * 2 ^ hs = node from by rw [hnode, pow_succ]; ring] at h2
        rw [hcand] at h2
        exact h2
      have hmono1 : psum v node ≤ psum v N := psum_mono v hle
      have hmono2 : psum v (node + 2 ^ hs) ≤ psum v N := psum_mono v hc
      rw [if_pos (by omega)]
      apply ih (node + 2 ^ hs) (2 * idx + 1) (val - nodeVal v hs idx)
        hcand.symm hc (by rw [pow_succ] at hlt; omega)
      omega

theorem find_ge_total {LB N : Nat} {v : Nat → Nat} (hLB : 1 ≤ LB)
    (hv : ∀ i, i < N → v i ≤ 2 ^ (LB - 1)) (h64 : LB + levels N ≤ 65)
    (hN : 1 ≤ N) (hN64 : N < U64) {val : Nat} (hval : psum v N ≤ val) :
    find LB N (byteTree LB N v) val = N - 1 := by
  rw [byteTree_eq_spec hLB hv h64]
  have hsz : ∀ h, h < levels N → get_size LB h ≤ 8 := fun h hh =>
    get_size_le LB h (by omega)
  have hm : ∀ l k, l < levels N → k < cnt N l →
      readNode LB N (byteSpec LB N v) l k = nodeVal v l k := fun l k hl hk =>
    readNode_byteSpec v hLB hv hsz hl hk
  have hp0 : psum v 0 = 0 := by
    unfold psum
    exact rangeSum_nil v (Nat.le_refl 0)
  have hdisj := findLoop_ge_total hm (levels N) 0 0 val (by ring) (by omega)
    (by
      have := N_lt_two_pow_levels N hN
      omega)
    (by omega)
  rw [find_eq]
  rcases hdisj with h | h
  · rw [h, if_pos (Nat.le_refl N)]
    exact sub1_64_eq hN hN64
  · rw [if_neg (by omega)]

theorem findLoop_perfect {LB N : Nat} {v m : Nat → Nat}
    (hm : ∀ l k, l < levels N → k < cnt N l → readNode LB N m l k = nodeVal v l k)
    (hperf : N + 1 = 2 ^ levels N) (t : Nat) :
    ∀ hs node idx val, hs ≤ levels N → node = idx * 2 ^ hs →
      idx < 2 ^ (levels N - hs) → psum v node ≤ t → val = t - psum v node →
      (t < psum v (node + 2 ^ hs) ∨ node + 2 ^ hs = N + 1) →
      (findLoop LB N m false hs node idx val).1 =
        Nat.findGreatest (fun n => psum v n ≤ t) N := by
  intro hs
  induction hs with
  | zero =>
    intro node idx val _ hnode hidx hps hval hdisj
    show node = _
    have hnN : node ≤ N := by
      rw [hnode, pow_zero, Nat.mul_one]
      rw [Nat.sub_zero] at hidx
      omega
    symm
    rw [Nat.findGreatest_eq_iff]
    refine ⟨hnN, fun _ => hps, ?_⟩
    intro n hn1 hn2 hP
    rcases hdisj with h | h
    · rw [pow_zero] at h
      have : psum v (node + 1) ≤ psum v n := psum_mono v (by omega)
      omega
    · rw [pow_zero] at h
      omega
  | succ hs ih =>
    intro node idx val hhs hnode hidx hps hval hdisj
    rw [findLoop_succ]
    have hcand : (2 * idx + 1) * 2 ^ hs = node + 2 ^ hs := by
      rw [hnode, pow_succ]
      ring
    have hcle : (2 * idx + 1) * 2 ^ hs ≤ N := by
      have h3 : 2 * idx + 1 ≤ 2 * 2 ^ (levels N - (hs + 1)) - 1 := by omega
      have h4 := Nat.mul_le_mul_right (2 ^ hs) h3
      have h5 : (2 * 2 ^ (levels N - (hs + 1)) - 1) * 2 ^ hs =
          2 * 2 ^ (levels N - (hs + 1)) * 2 ^ hs - 2 ^ hs := by
        rw [Nat.sub_one_mul]
      have h6 : 2 * 2 ^ (levels N - (hs + 1)) * 2 ^ hs = 2 ^ levels N := by
        rw [show 2 * 2 ^ (levels N - (hs + 1)) * 2 ^ hs =
          2 ^ (levels N - (hs + 1)) * 2 ^ (hs + 1) from by rw [pow_succ]; ring,
          ← pow_add]
        congr 1
        omega
      have h7 : (1:Nat) ≤ 2 ^ hs := Nat.one_le_two_pow
      omega
    have hkc : idx < cnt N hs := (node_le_iff N hs idx).mp hcle
    have hhlev : hs < levels N := lt_levels_of_node_le hcle
    rw [probeVal_in m (bp_lt_of_cand_le hcle), hm hs idx hhlev hkc]
    have hnv : psum v node + nodeVal v hs idx = psum v (node + 2 ^ hs) := by
      have h2 := nodeVal_psum v hs idx
      rw [show 2 * idx * 2 ^ hs = node from by rw [hnode, pow_succ]; ring] at h2
      rw [hcand] at h2
      exact h2
    have hmono : psum v node ≤ psum v (node + 2 ^ hs) := by omega
    by_cases hbranch : psum v (node + 2 ^ hs) ≤ t
    · rw [if_pos (by omega)]
      apply ih (node + 2 ^ hs) (2 * idx + 1) (val - nodeVal v hs idx)
        (by omega) hcand.symm (by
          have h8 : levels N - hs = levels N - (hs + 1) + 1 := by omega
          rw [h8, pow_succ]
          omega)
        hbranch (by omega)
      rw [show node + 2 ^ hs + 2 ^ hs = node + 2 ^ (hs + 1) from by
        rw [pow_succ]; omega]
      exact hdisj
    · rw [if_neg (by omega)]
      apply ih node (2 * idx) val (by omega) (by rw [hnode, pow_succ]; ring)
        (by
          have h8 : levels N - hs = levels N - (hs + 1) + 1 := by omega
          rw [h8, pow_succ]
          omega)
        hps hval
      left
      omega

theorem find_perfect {LB N : Nat} {v : Nat → Nat} (hLB : 1 ≤ LB)
    (hv : ∀ i, i < N → v i ≤ 2 ^ (LB - 1)) (h64 : LB + levels N ≤ 65)
    (hperf : N + 1 = 2 ^ levels N) (val : Nat) :
    find LB N (byteTree LB N v) val =
      sub1_64 (Nat.findGreatest (fun n => psum v n ≤ val) N) := by
  rw [byteTree_eq_spec hLB hv h64]
  have hsz : ∀ h, h < levels N → get_size LB h ≤ 8 := fun h hh =>
    get_size_le LB h (by omega)
  have hm : ∀ l k, l < levels N → k < cnt N l →
      readNode LB N (byteSpec LB N v) l k = nodeVal v l k := fun l k hl hk =>
    readNode_byteSpec v hLB hv hsz hl hk
  have hp0 : psum v 0 = 0 := by
    unfold psum
    exact rangeSum_nil v (Nat.le_refl 0)
  have hres := findLoop_perfect hm hperf val (levels N) 0 0 val
    (Nat.le_refl _) (by ring) (by
      rw [Nat.sub_self]
      omega)
    (by omega) (by omega) (Or.inr (by omega))
  rw [find_eq, hres, if_pos (Nat.findGreatest_le N)]

theorem findLoop_left {LB N : Nat} {v m : Nat → Nat}
    (hm : ∀ l k, l < levels N → k < cnt N l → readNode LB N m l k = nodeVal v l k)
    {val : Nat} (hval : val < v 0) :
    ∀ hs, hs ≤ levels N → findLoop LB N m false hs 0 0 val = (0, 0, val) := by
  intro hs
  induction hs with
  | zero => intro _; rfl
  | succ hs ih =>
    intro hle
    have hhlev : hs < levels N := by omega
    have hcle : (2 * 0 + 1) * 2 ^ hs ≤ N := by
      have h0 := two_pow_le_of_lt_levels hhlev
      omega
    have hkc : 0 < cnt N hs := (node_le_iff N hs 0).mp hcle
    rw [findLoop_succ, probeVal_in m (bp_lt_of_cand_le hcle), hm hs 0 hhlev hkc]
    have h1 := nodeVal_psum v hs 0
    rw [show 2 * 0 * 2 ^ hs = 0 from by ring,
      show (2 * 0 + 1) * 2 ^ hs = 2 ^ hs from by ring] at h1
    have h2 : psum v 0 = 0 := rangeSum_nil v (Nat.le_refl 0)
    have h3 : v 0 ≤ psum v (2 ^ hs) :=
      rangeSum_ge_first v (show 0 < 2 ^ hs from Nat.one_le_two_pow)
    rw [if_neg (show ¬(nodeVal v hs 0 ≤ val) from by omega),
      show 2 * 0 = 0 from rfl]
    exact ih (by omega)

theorem find_left {LB N : Nat} {v : Nat → Nat} (hLB : 1 ≤ LB)
    (hv : ∀ i, i < N → v i ≤ 2 ^ (LB - 1)) (h64 : LB + levels N ≤ 65)
    {val : Nat} (hval : val < v 0) :
    find LB N (byteTree LB N v) val = U64 - 1 := by
  rw [byteTree_eq_spec hLB hv h64]
  have hsz : ∀ h, h < levels N → get_size LB h ≤ 8 := fun h hh =>
    get_size_le LB h (by omega)
  have hm : ∀ l k, l < levels N → k < cnt N l →
      readNode LB N (byteSpec LB N v) l k = nodeVal v l k := fun l k hl hk =>
    readNode_byteSpec v hLB hv hsz hl hk
  rw [find_eq, findLoop_left hm hval (levels N) (Nat.le_refl _)]
  rw [if_pos (Nat.zero_le N)]
  exact sub1_64_zero

/-! ### Complement duality -/

theorem rangeSum_compl {N C : Nat} {v v2 : Nat → Nat}
    (hv2 : ∀ i, i < N → v2 i = C - v i) (hv : ∀ i, i < N → v i ≤ C) :
    ∀ b, b ≤ N → ∀ a, a ≤ b →
      rangeSum v2 a b + rangeSum v a b = (b - a) * C := by
  intro b
  induction b with
  | zero =>
    intro _ a ha
    have ha0 : a = 0 := by omega
    subst ha0
    rw [rangeSum_nil v (Nat.le_refl 0), rangeSum_nil v2 (Nat.le_refl 0),
      Nat.sub_self, Nat.zero_mul]
  | succ b ih =>
    intro hbN a ha
    rcases Nat.lt_or_ge a (b + 1) with hab | hab
    · have hab2 : a ≤ b := by omega
      rw [rangeSum_succ v hab2, rangeSum_succ v2 hab2]
      have h1 := ih (by omega) a hab2
      have h2 := hv2 b (by omega)
      have h3 := hv b (by omega)
      rw [show b + 1 - a = (b - a) + 1 from by omega, Nat.succ_mul]
      omega
    · have hab2 : a = b + 1 := by omega
      subst hab2
      rw [rangeSum_nil v (Nat.le_refl _), rangeSum_nil v2 (Nat.le_refl _),
        Nat.sub_self, Nat.zero_mul]

theorem nodeVal_compl {LB N : Nat} {v v2 : Nat → Nat} (hLB : 1 ≤ LB)
    (hv : ∀ i, i < N → v i ≤ 2 ^ (LB - 1))
    (hv2 : ∀ i, i < N → v2 i = 2 ^ (LB - 1) - v i) {l k : Nat}
    (hn : (2 * k + 1) * 2 ^ l ≤ N) :
    nodeVal v2 l k + nodeVal v l k = 2 ^ (LB + l - 1) := by
  unfold nodeVal
  have hmul : 2 * k * 2 ^ l + 2 ^ l = (2 * k + 1) * 2 ^ l := by ring
  have h1 := rangeSum_compl hv2 hv ((2 * k + 1) * 2 ^ l) hn (2 * k * 2 ^ l)
    (by rw [← hmul]; exact Nat.le_add_right _ _)
  rw [← hmul] at h1
  rw [h1, Nat.add_sub_cancel_left, ← pow_add]
  congr 1
  omega

theorem findLoop_compl {LB N : Nat} {v v2 m1 m2 : Nat → Nat} (hLB : 1 ≤ LB)
    (h64 : LB + levels N ≤ 65)
    (hv : ∀ i, i < N → v i ≤ 2 ^ (LB - 1))
    (hv2 : ∀ i, i < N → v2 i = 2 ^ (LB - 1) - v i)
    (hm1 : ∀ l k, l < levels N → k < cnt N l →
      readNode LB N m1 l k = nodeVal v l k)
    (hm2 : ∀ l k, l < levels N → k < cnt N l →
      readNode LB N m2 l k = nodeVal v2 l k)
    (hperf : N + 1 = 2 ^ levels N) :
    ∀ hs, hs ≤ levels N → ∀ node idx val, idx < 2 ^ (levels N - hs) →
      findLoop LB N m1 true hs node idx val =
        findLoop LB N m2 false hs node idx val := by
  intro hs
  induction hs with
  | zero => intro _ node idx val _; rfl
  | succ hs ih =>
    intro hhs node idx val hidx
    have hcle : (2 * idx + 1) * 2 ^ hs ≤ N := by
      have h3 : 2 * idx + 1 ≤ 2 * 2 ^ (levels N - (hs + 1)) - 1 := by omega
      have h4 := Nat.mul_le_mul_right (2 ^ hs) h3
      have h5 : (2 * 2 ^ (levels N - (hs + 1)) - 1) * 2 ^ hs =
          2 * 2 ^ (levels N - (hs + 1)) * 2 ^ hs - 2 ^ hs := by
        rw [Nat.sub_one_mul]
      have h6 : 2 * 2 ^ (levels N - (hs + 1)) * 2 ^ hs = 2 ^ levels N := by
        rw [show 2 * 2 ^ (levels N - (hs + 1)) * 2 ^ hs =
          2 ^ (levels N - (hs + 1)) * 2 ^ (hs + 1) from by rw [pow_succ]; ring,
          ← pow_add]
        congr 1
        omega
      have h7 : (1:Nat) ≤ 2 ^ hs := Nat.one_le_two_pow
      omega
    have hkc : idx < cnt N hs := (node_le_iff N hs idx).mp hcle
    have hhlev : hs < levels N := lt_levels_of_node_le hcle
    rw [findLoop_succ, findLoop_succ,
      probeVal_in_compl m1 (bp_lt_of_cand_le hcle), hm1 hs idx hhlev hkc,
      probeVal_in m2 (bp_lt_of_cand_le hcle), hm2 hs idx hhlev hkc]
    have hnc := nodeVal_compl hLB hv hv2 hcle
    have hle1 : nodeVal v hs idx ≤ 2 ^ (LB + hs - 1) :=
      nodeVal_le hv hLB hcle
    have hlt64 : 2 ^ (LB + hs - 1) < U64 := by
      show 2 ^ (LB + hs - 1) < 2 ^ 64
      exact Nat.pow_lt_pow_right (by omega) (by omega)
    have hmod : 2 ^ (LB + hs - 1) % U64 = 2 ^ (LB + hs - 1) :=
      Nat.mod_eq_of_lt hlt64
    rw [hmod, u64sub_eq hle1 hlt64,
      show 2 ^ (LB + hs - 1) - nodeVal v hs idx = nodeVal v2 hs idx from by
        omega]
    have hidx2 : 2 * idx + 1 < 2 ^ (levels N - hs) := by
      have h8 : levels N - hs = levels N - (hs + 1) + 1 := by omega
      rw [h8, pow_succ]
      omega
    by_cases hb : nodeVal v2 hs idx ≤ val
    · rw [if_pos hb, if_pos hb]
      exact ih (by omega) (node + 2 ^ hs) (2 * idx + 1) _ hidx2
    · rw [if_neg hb, if_neg hb]
      exact ih (by omega) node (2 * idx) val (by omega)

theorem find_complement_perfect {LB N : Nat} {v v2 : Nat → Nat} (hLB : 1 ≤ LB)
    (hv : ∀ i, i < N → v i ≤ 2 ^ (LB - 1))
    (hv2 : ∀ i, i < N → v2 i = 2 ^ (LB - 1) - v i)
    (h64 : LB + levels N ≤ 65) (hperf : N + 1 = 2 ^ levels N) (val : Nat) :
    find_complement LB N (byteTree LB N v) val =
      find LB N (byteTree LB N v2) val := by
  have hv2b : ∀ i, i < N → v2 i ≤ 2 ^ (LB - 1) := by
    intro i hi
    rw [hv2 i hi]
    exact Nat.sub_le _ _
  rw [byteTree_eq_spec hLB hv h64, byteTree_eq_spec hLB hv2b h64]
  have hsz : ∀ h, h < levels N → get_size LB h ≤ 8 := fun h hh =>
    get_size_le LB h (by omega)
  have hm1 : ∀ l k, l < levels N → k < cnt N l →
      readNode LB N (byteSpec LB N v) l k = nodeVal v l k := fun l k hl hk =>
    readNode_byteSpec v hLB hv hsz hl hk
  have hm2 : ∀ l k, l < levels N → k < cnt N l →
      readNode LB N (byteSpec LB N v2) l k = nodeVal v2 l k := fun l k hl hk =>
    readNode_byteSpec v2 hLB hv2b hsz hl hk
  rw [find_complement_eq, find_eq,
    findLoop_compl hLB h64 hv hv2 hm1 hm2 hperf (levels N) (Nat.le_refl _)
      0 0 val (by
        rw [Nat.sub_self]
        omega)]

end dyn

namespace dyn

/-! ### The frame property of `set` -/

theorem odd_mul_div_pow (k l : Nat) : (2 * k + 1) * 2 ^ l / 2 ^ (l + 1) = k := by
  rw [show (2 * k + 1) * 2 ^ l = 2 ^ (l + 1) * k + 2 ^ l from by
    rw [pow_succ]; ring]
  rw [Nat.mul_add_div (Nat.pos_pow_of_pos _ (by omega)),
    Nat.div_eq_of_lt (Nat.pow_lt_pow_right (by omega) (by omega))]
  omega

theorem ctz_decomp_ex : ∀ idx : Nat, 1 ≤ idx →
    ∃ l k, idx = (2 * k + 1) * 2 ^ l ∧ ctz idx = l := by
  intro idx
  induction idx using Nat.strong_induction_on with
  | _ idx ih =>
    intro h
    by_cases hpar : idx % 2 = 1
    · refine ⟨0, idx / 2, ?_, ctz_odd idx hpar⟩
      rw [pow_zero, Nat.mul_one]
      omega
    · have h2 : idx % 2 = 0 := by omega
      have hne : idx ≠ 0 := by omega
      obtain ⟨l, k, hk, hl⟩ := ih (idx / 2) (by omega) (by omega)
      refine ⟨l + 1, k, ?_, ?_⟩
      · calc idx = 2 * (idx / 2) := by omega
          _ = 2 * ((2 * k + 1) * 2 ^ l) := by rw [← hk]
          _ = (2 * k + 1) * 2 ^ (l + 1) := by rw [pow_succ]; ring
      · rw [ctz_even idx hne h2, hl]

theorem heightOf_odd (k l : Nat) : heightOf ((2 * k + 1) * 2 ^ l) = l := by
  unfold heightOf find_first_set
  rw [if_neg (show ¬(2 * k + 1) * 2 ^ l = 0 from by
      have h := Nat.mul_pos (show 0 < 2 * k + 1 from by omega)
        (show 0 < 2 ^ l from Nat.one_le_two_pow)
      omega),
    ctz_odd_mul_pow, Nat.add_sub_cancel]

theorem levelIdxOf_odd (k l : Nat) : levelIdxOf ((2 * k + 1) * 2 ^ l) = k := by
  unfold levelIdxOf
  rw [heightOf_odd, Nat.add_comm 1 l, odd_mul_div_pow]

theorem two_pow_ctz_le {idx : Nat} (h : 1 ≤ idx) : 2 ^ ctz idx ≤ idx := by
  obtain ⟨l, k, hk, hl⟩ := ctz_decomp_ex idx h
  rw [hl, hk]
  exact Nat.le_mul_of_pos_left _ (by omega)

theorem ctz_mul_pow_ge (b t : Nat) (hb : 1 ≤ b) : t ≤ ctz (b * 2 ^ t) := by
  obtain ⟨l, k, hk, hl⟩ := ctz_decomp_ex b hb
  rw [show b * 2 ^ t = (2 * k + 1) * 2 ^ (l + t) from by
    rw [hk, pow_add]; ring]
  rw [ctz_odd_mul_pow]
  omega

theorem ctz_step {idx : Nat} (h : 1 ≤ idx) :
    ctz idx + 1 ≤ ctz (idx + mask_first_set idx) := by
  obtain ⟨l, k, hk, hl⟩ := ctz_decomp_ex idx h
  have hmask : mask_first_set idx = 2 ^ l := by
    unfold mask_first_set
    rw [if_neg (show ¬idx = 0 from by omega), hl]
  have hstep : idx + mask_first_set idx = (k + 1) * 2 ^ (l + 1) :=
    calc idx + mask_first_set idx
        = (2 * k + 1) * 2 ^ l + 2 ^ l := by rw [hmask, ← hk]
      _ = (k + 1) * 2 ^ (l + 1) := by rw [pow_succ]; ring
  rw [hstep, hl]
  exact ctz_mul_pow_ge (k + 1) (l + 1) (by omega)

theorem pathF_succ (N f idx : Nat) :
    pathF N (f + 1) idx =
      if idx ≤ N then idx :: pathF N f (idx + mask_first_set idx) else [] := rfl

theorem setLoop_succ (LB N : Nat) (inc : Int) (f : Nat) (m : Nat → Nat)
    (idx : Nat) :
    setLoop LB N inc (f + 1) m idx =
      if idx ≤ N then
        setLoop LB N inc f
          (addAt m (nodePos LB N (heightOf idx) (levelIdxOf idx)) inc)
          (idx + mask_first_set idx)
      else m := rfl

theorem pathF_mem {N : Nat} : ∀ f idx, 1 ≤ idx →
    ∀ j ∈ pathF N f idx, 1 ≤ j ∧ j ≤ N ∧ ctz idx ≤ ctz j := by
  intro f
  induction f with
  | zero =>
    intro idx _ j hj
    exact absurd hj (List.not_mem_nil j)
  | succ f ih =>
    intro idx h j hj
    rw [pathF_succ] at hj
    by_cases hN : idx ≤ N
    · rw [if_pos hN] at hj
      rcases List.mem_cons.mp hj with rfl | hj2
      · exact ⟨h, hN, Nat.le_refl _⟩
      · have h2 := ih (idx + mask_first_set idx) (by omega) j hj2
        have h3 := ctz_step h
        exact ⟨h2.1, h2.2.1, by omega⟩
    · rw [if_neg hN] at hj
      exact absurd hj (List.not_mem_nil j)

theorem region_sub_band {LB N l k : Nat} (hk : k < cnt N l) :
    nodePos LB N l k + get_size LB l ≤ levelArr LB N (l + 1) := by
  have hp := get_size_pos LB l
  have h1 := nodePos_add_lt hk
    (show get_size LB l - 1 < get_size LB l from by omega)
  omega

theorem levelArr_le_nodePos (LB N l k : Nat) :
    levelArr LB N l ≤ nodePos LB N l k := by
  unfold nodePos
  exact Nat.le_add_right _ _

theorem load64_mod_congr {m1 m2 : Nat → Nat} (hb1 : bytesLt m1)
    (hb2 : bytesLt m2) {p sz : Nat} (hsz : sz ≤ 8)
    (hag : ∀ q, p ≤ q → q < p + sz → m1 q = m2 q) :
    load64 m1 p % 256 ^ sz = load64 m2 p % 256 ^ sz := by
  rw [load64_mod hb1 hsz, load64_mod hb2 hsz]
  exact dsum_congr (fun j hj => hag (p + j) (by omega) (by omega))

end dyn

namespace dyn

theorem setLoop_frame {LB N : Nat} {inc : Int} (h64 : LB + levels N ≤ 65) :
    ∀ f (m : Nat → Nat) idx, bytesLt m → 1 ≤ idx →
      (∀ j ∈ pathF N f idx, fitAt LB N inc m j) →
      ∀ q, (∀ j ∈ pathF N f idx, ¬inRegion LB N (heightOf j) (levelIdxOf j) q) →
        setLoop LB N inc f m idx q = m q := by
  intro f
  induction f with
  | zero => intro m idx _ _ _ q _; rfl
  | succ f ih =>
    intro m idx hb h1 hfit q hq
    rw [pathF_succ] at hfit hq
    rw [setLoop_succ]
    by_cases hN : idx ≤ N
    · rw [if_pos hN]
      rw [if_pos hN] at hfit hq
      obtain ⟨l, k, hk, hl⟩ := ctz_decomp_ex idx h1
      have hH : heightOf idx = l := by rw [hk]; exact heightOf_odd k l
      have hK : levelIdxOf idx = k := by rw [hk]; exact levelIdxOf_odd k l
      have hcle : (2 * k + 1) * 2 ^ l ≤ N := by rw [← hk]; exact hN
      have hkc : k < cnt N l := (node_le_iff N l k).mp hcle
      have hlev : l < levels N := lt_levels_of_node_le hcle
      have hsz8 : get_size LB l ≤ 8 := get_size_le LB l (by omega)
      have hfit0 := hfit idx (List.mem_cons_self idx _)
      unfold fitAt at hfit0
      rw [hH, hK] at hfit0
      have hm'q : ∀ q', ¬(nodePos LB N l k ≤ q' ∧
          q' < nodePos LB N l k + get_size LB l) →
          addAt m (nodePos LB N l k) inc q' = m q' := by
        intro q' hq'
        rw [addAt_read hb hsz8 hfit0.1 hfit0.2 q', if_neg hq']
      have hb' : bytesLt (addAt m (nodePos LB N l k) inc) := bytesLt_addAt hb _ _
      have htail := pathF_mem (N := N) f (idx + mask_first_set idx) (by omega)
      have hfit' : ∀ j ∈ pathF N f (idx + mask_first_set idx),
          fitAt LB N inc (addAt m (nodePos LB N l k) inc) j := by
        intro j hj
        have hjm := htail j hj
        obtain ⟨lj, kj, hkj, hlj⟩ := ctz_decomp_ex j hjm.1
        have hHj : heightOf j = lj := by rw [hkj]; exact heightOf_odd kj lj
        have hKj : levelIdxOf j = kj := by rw [hkj]; exact levelIdxOf_odd kj lj
        have hclej : (2 * kj + 1) * 2 ^ lj ≤ N := by rw [← hkj]; exact hjm.2.1
        have hkcj : kj < cnt N lj := (node_le_iff N lj kj).mp hclej
        have hlevj : lj < levels N := lt_levels_of_node_le hclej
        have hszj : get_size LB lj ≤ 8 := get_size_le LB lj (by omega)
        have hlj2 : l + 1 ≤ lj := by
          have hs := ctz_step h1
          rw [hl] at hs
          have h22 := hjm.2.2
          omega
        have hag : ∀ q', nodePos LB N lj kj ≤ q' →
            q' < nodePos LB N lj kj + get_size LB lj →
            addAt m (nodePos LB N l k) inc q' = m q' := by
          intro q' hq1 hq2
          apply hm'q
          intro hcontra
          have hb1 : nodePos LB N l k + get_size LB l ≤ levelArr LB N (l + 1) :=
            region_sub_band hkc
          have hb2 : levelArr LB N (l + 1) ≤ levelArr LB N lj :=
            levelArr_mono LB N (by omega)
          have hb3 : levelArr LB N lj ≤ nodePos LB N lj kj :=
            levelArr_le_nodePos LB N lj kj
          omega
        have hfj := hfit j (List.mem_cons_of_mem idx hj)
        unfold fitAt at hfj ⊢
        rw [hHj, hKj] at hfj ⊢
        rw [load64_mod_congr hb' hb hszj hag]
        exact hfj
      have hstep := ih (addAt m (nodePos LB N l k) inc)
        (idx + mask_first_set idx) hb' (by omega) hfit' q
        (fun j hj => hq j (List.mem_cons_of_mem idx hj))
      rw [hH, hK, hstep]
      apply hm'q q
      have hqhead := hq idx (List.mem_cons_self idx _)
      rw [hH, hK] at hqhead
      exact hqhead
    · rw [if_neg hN]

theorem ctz_lt_levels {N idx : Nat} (h1 : 1 ≤ idx) (hN : idx ≤ N) :
    ctz idx < levels N := by
  have h2 := two_pow_ctz_le h1
  have h3 := N_lt_two_pow_levels N (by omega)
  by_contra hcon
  have h4 : 2 ^ levels N ≤ 2 ^ ctz idx :=
    Nat.pow_le_pow_right (by omega) (by omega)
  omega

theorem pathF_length {N : Nat} : ∀ f idx, 1 ≤ idx →
    (pathF N f idx).length ≤ levels N - ctz idx := by
  intro f
  induction f with
  | zero => intro idx _; exact Nat.zero_le _
  | succ f ih =>
    intro idx h
    rw [pathF_succ]
    by_cases hN : idx ≤ N
    · rw [if_pos hN, List.length_cons]
      have h2 := ih (idx + mask_first_set idx) (by omega)
      have h3 := ctz_step h
      have h4 := ctz_lt_levels h hN
      omega
    · rw [if_neg hN]
      exact Nat.zero_le _

theorem path_length (N i : Nat) : (path N i).length ≤ levels N := by
  have h1 := pathF_length (N := N) (N + 1) (i + 1) (by omega)
  have h2 : levels N - ctz (i + 1) ≤ levels N := Nat.sub_le _ _
  exact le_trans h1 h2

theorem set_frame {LB N : Nat} {m : Nat → Nat} {i : Nat} {inc : Int}
    (hb : bytesLt m) (h64 : LB + levels N ≤ 65)
    (hfit : ∀ j ∈ path N i, fitAt LB N inc m j) (q : Nat)
    (hq : ∀ j ∈ path N i, ¬inRegion LB N (heightOf j) (levelIdxOf j) q) :
    set LB N m i inc q = m q :=
  setLoop_frame h64 (N + 1) m (i + 1) hb (by omega) hfit q hq

end dyn

namespace dyn

/-! ### Popcount as a bit sum; correctness of `LineRankSelect::rank` -/

theorem rangeSum_congr {g g2 : Nat → Nat} {a b : Nat}
    (h : ∀ i, a ≤ i → i < b → g i = g2 i) :
    rangeSum g a b = rangeSum g2 a b := by
  unfold rangeSum
  congr 1
  apply List.map_congr_left
  intro i hi
  have hi2 := List.mem_range.mp hi
  exact h (a + i) (by omega) (by omega)

theorem rangeSum_shift (g : Nat → Nat) (a n : Nat) :
    rangeSum g a (a + n) = rangeSum (fun j => g (a + j)) 0 n := by
  unfold rangeSum
  rw [Nat.add_sub_cancel_left, Nat.sub_zero]
  congr 1
  apply List.map_congr_left
  intro i _
  simp

theorem rangeSum_single (g : Nat → Nat) (a : Nat) :
    rangeSum g a (a + 1) = g a := by
  rw [rangeSum_succ g (Nat.le_refl a), rangeSum_nil g (Nat.le_refl a)]
  omega

theorem rangeSum_split_first (g : Nat → Nat) {a b : Nat} (h : a < b) :
    rangeSum g a b = g a + rangeSum g (a + 1) b := by
  have h1 := rangeSum_append g (show a ≤ a + 1 from by omega)
    (show a + 1 ≤ b from by omega)
  have h2 := rangeSum_single g a
  omega

theorem popcount_rec (n : Nat) : popcount n = n % 2 + popcount (n / 2) := by
  unfold popcount
  match n with
  | 0 => simp [pcF]
  | n + 1 =>
    simp only [pcF]
    rw [if_neg (show ¬n + 1 = 0 from by omega)]
    have h2 : (n + 1) / 2 ≤ n := by omega
    rw [pcF_congr h2 (Nat.le_refl _)]

theorem popcount_bits : ∀ (K n : Nat), n < 2 ^ K →
    popcount n = rangeSum (fun b => n / 2 ^ b % 2) 0 K := by
  intro K
  induction K with
  | zero =>
    intro n hn
    have h0 : n = 0 := by omega
    subst h0
    rw [rangeSum_nil _ (Nat.le_refl 0)]
    rfl
  | succ K ih =>
    intro n hn
    have hhalf : n / 2 < 2 ^ K := by
      rw [Nat.div_lt_iff_lt_mul (by omega), ← pow_succ]
      exact hn
    rw [popcount_rec n, ih (n / 2) hhalf,
      rangeSum_split_first _ (show 0 < K + 1 from by omega)]
    have hsh := rangeSum_shift (fun b => n / 2 ^ b % 2) 1 K
    rw [show (0:Nat) + 1 + K = 1 + K from by omega] at hsh
    rw [show (1:Nat) + K = K + 1 from by omega] at hsh
    rw [hsh]
    have hcongr : rangeSum (fun j => n / 2 ^ (1 + j) % 2) 0 K =
        rangeSum (fun b => n / 2 / 2 ^ b % 2) 0 K := by
      apply rangeSum_congr
      intro i _ _
      rw [Nat.add_comm 1 i, pow_succ, Nat.mul_comm, ← Nat.div_div_eq_div_mul]
    rw [hcongr]
    simp [pow_zero]

theorem bitRank_words {B : Nat → Nat} (hB : ∀ i, B i < 2 ^ 64) :
    ∀ k, bitRank B (64 * k) = rangeSum (fun i => popcount (B i)) 0 k := by
  intro k
  induction k with
  | zero =>
    rw [Nat.mul_zero]
    rw [rangeSum_nil _ (Nat.le_refl 0)]
    rfl
  | succ k ih =>
    unfold bitRank at ih ⊢
    rw [show 64 * (k + 1) = 64 * k + 64 from by ring,
      ← rangeSum_append (bitGet B) (Nat.zero_le (64 * k))
        (Nat.le_add_right (64 * k) 64),
      ih,
      ← rangeSum_append (fun i => popcount (B i)) (Nat.zero_le k)
        (Nat.le_add_right k 1)]
    congr 1
    rw [rangeSum_shift (bitGet B) (64 * k) 64, rangeSum_single _ k]
    have hcongr : rangeSum (fun j => bitGet B (64 * k + j)) 0 64 =
        rangeSum (fun b => B k / 2 ^ b % 2) 0 64 := by
      apply rangeSum_congr
      intro i _ hi
      unfold bitGet
      rw [Nat.mul_add_div (by omega), Nat.mul_add_mod,
        Nat.div_eq_of_lt hi, Nat.mod_eq_of_lt hi, Nat.add_zero]
    rw [hcongr, ← popcount_bits 64 (B k) (hB k)]

theorem div_pow_mod_two_of_lt {n r j : Nat} (h : j < r) :
    n % 2 ^ r / 2 ^ j % 2 = n / 2 ^ j % 2 := by
  have h2 : (n % 2 ^ r).testBit j = n.testBit j := by
    rw [Nat.testBit_mod_two_pow]
    simp [h]
  rw [Nat.testBit_to_div_mod, Nat.testBit_to_div_mod] at h2
  have ha := Nat.mod_two_eq_zero_or_one (n % 2 ^ r / 2 ^ j)
  have hb := Nat.mod_two_eq_zero_or_one (n / 2 ^ j)
  rcases ha with ha | ha <;> rcases hb with hb | hb <;>
    simp [ha, hb] at h2 ⊢

theorem bitRank_partial {B : Nat → Nat} (hB : ∀ i, B i < 2 ^ 64) (k r : Nat)
    (hr : r ≤ 64) :
    bitRank B (64 * k + r) =
      rangeSum (fun i => popcount (B i)) 0 k + popcount (B k % 2 ^ r) := by
  unfold bitRank
  rw [← rangeSum_append (bitGet B) (Nat.zero_le (64 * k))
    (Nat.le_add_right (64 * k) r)]
  have hw := bitRank_words hB k
  unfold bitRank at hw
  rw [hw]
  congr 1
  rw [rangeSum_shift (bitGet B) (64 * k) r]
  have hcongr : rangeSum (fun j => bitGet B (64 * k + j)) 0 r =
      rangeSum (fun b => B k % 2 ^ r / 2 ^ b % 2) 0 r := by
    apply rangeSum_congr
    intro i _ hi
    unfold bitGet
    rw [Nat.mul_add_div (by omega), Nat.mul_add_mod,
      Nat.div_eq_of_lt (show i < 64 from by omega),
      Nat.mod_eq_of_lt (show i < 64 from by omega), Nat.add_zero,
      div_pow_mod_two_of_lt hi]
  rw [hcongr, ← popcount_bits r (B k % 2 ^ r) (Nat.mod_lt _ (by positivity))]

end dyn

namespace dyn

theorem lineRank_correct {W len : Nat} {tg B : Nat → Nat}
    (hB : ∀ i, B i < 2 ^ 64)
    (hcons : ∀ j, (j + 1) * W ≤ len →
      tg j = rangeSum (fun i => popcount (B i)) 0 ((j + 1) * W))
    {p : Nat} (hp : p ≤ 64 * len) :
    lineRank W tg B p = bitRank B p := by
  unfold lineRank
  have hq : p / (64 * W) = p / 64 / W := (Nat.div_div_eq_div_mul p 64 W).symm
  have hidxW : p / (64 * W) * W ≤ p / 64 := by
    rw [hq]
    exact Nat.div_mul_le_self _ _
  have h64p : p / 64 ≤ len := by
    have h1 : p / 64 ≤ 64 * len / 64 := Nat.div_le_div_right hp
    rw [Nat.mul_div_cancel_left len (by omega)] at h1
    exact h1
  have hmask : compact_bitmask (p % 64) 0 = 2 ^ (p % 64) - 1 := by
    unfold compact_bitmask
    rw [pow_zero, Nat.mul_one]
  have hland : B (p / 64) &&& compact_bitmask (p % 64) 0 =
      B (p / 64) % 2 ^ (p % 64) := by
    rw [hmask]
    exact Nat.and_pow_two_sub_one_eq_mod _ _
  have hpart := bitRank_partial hB (p / 64) (p % 64)
    (Nat.le_of_lt (Nat.mod_lt p (by omega)))
  rw [show 64 * (p / 64) + p % 64 = p from Nat.div_add_mod p 64] at hpart
  rw [hland, hpart]
  by_cases hzero : p / (64 * W) = 0
  · rw [if_pos hzero, hzero, Nat.zero_mul]
    omega
  · rw [if_neg hzero]
    have hone : p / (64 * W) - 1 + 1 = p / (64 * W) :=
      Nat.succ_pred_eq_of_pos (Nat.pos_of_ne_zero hzero)
    have hcj := hcons (p / (64 * W) - 1) (by
      rw [hone]
      calc p / (64 * W) * W ≤ p / 64 := hidxW
        _ ≤ len := h64p)
    rw [hone] at hcj
    rw [hcj]
    have happ := rangeSum_append (fun i => popcount (B i))
      (Nat.zero_le (p / (64 * W) * W)) hidxW
    omega

theorem rankAccesses_lt {W len p : Nat} (hp : p < 64 * len) :
    ∀ a ∈ rankAccesses W p, a < len := by
  intro a ha
  have hlt : p / 64 < len := by
    rw [Nat.div_lt_iff_lt_mul (by omega)]
    omega
  unfold rankAccesses at ha
  rcases List.mem_append.mp ha with h | h
  · have h2 := List.mem_range'_1.mp h
    omega
  · have h2 : a = p / 64 := by
      cases h with
      | head => rfl
      | tail _ h3 => exact absurd h3 (List.not_mem_nil a)
    omega

theorem selectLoop_none {B : Nat → Nat} :
    ∀ w i r, rangeSum (fun t => popcount (B t)) i (i + w) ≤ r →
      selectLoop B w i r = none := by
  intro w
  induction w with
  | zero => intro i r _; rfl
  | succ w ih =>
    intro i r hr
    have hsplit : rangeSum (fun t => popcount (B t)) i (i + (w + 1)) =
        popcount (B i) +
          rangeSum (fun t => popcount (B t)) (i + 1) (i + (w + 1)) :=
      rangeSum_split_first (fun t => popcount (B t))
        (show i < i + (w + 1) from by omega)
    show (if r < popcount (B i) then _ else _) = _
    rw [if_neg (by omega)]
    apply ih
    have h2 : i + 1 + w = i + (w + 1) := by omega
    rw [h2]
    omega

theorem selectLoopMax_out {len : Nat} {B : Nat → Nat} :
    ∀ w i r, rangeSum (fun t => popcount (B t)) i len ≤ r →
      selectLoopMax len B w i r = none ∨
        selectLoopMax len B w i r = some (U64 - 1) := by
  intro w
  induction w with
  | zero => intro i r _; left; rfl
  | succ w ih =>
    intro i r hr
    by_cases hout : len ≤ i
    · right
      show (if len ≤ i then _ else _) = _
      rw [if_pos hout]
    · have hsplit : rangeSum (fun t => popcount (B t)) i len =
          popcount (B i) + rangeSum (fun t => popcount (B t)) (i + 1) len :=
        rangeSum_split_first (fun t => popcount (B t))
          (show i < len from by omega)
      show (if len ≤ i then _ else if r < popcount (B i) then _ else _) = _ ∨
        (if len ≤ i then _ else if r < popcount (B i) then _ else _) = _
      rw [if_neg hout, if_neg (show ¬r < popcount (B i) from by omega)]
      apply ih
      omega

theorem selectMaxval_sentinel {W len : Nat} {tfp : Nat → Nat × Nat}
    {B : Nat → Nat} {k : Nat}
    (hr : rangeSum (fun t => popcount (B t)) (((tfp k).1 + 1) * W) len ≤
      (tfp k).2) :
    selectMaxval W len tfp B k = U64 - 1 := by
  unfold selectMaxval
  rcases selectLoopMax_out W (((tfp k).1 + 1) * W) ((tfp k).2) hr with h | h <;>
    rw [h]

theorem selectBitsize_fallthrough {W : Nat} {tf tg B : Nat → Nat} {k : Nat}
    (hr : rangeSum (fun t => popcount (B t)) ((tf k + 1) * W)
        ((tf k + 1) * W + W) ≤
      u64sub k (if tf k + 1 = 0 then 0 else tg (tf k + 1 - 1))) :
    selectBitsize W tf tg B k = (tf k + 1 + 1) * W * 64 := by
  unfold selectBitsize
  rw [selectLoop_none W ((tf k + 1) * W) _ hr]

end dyn

namespace dyn

/-! ### The claims -/

/-- C1 (amended): for a tree whose size is perfect (`N + 1 = 2^levels`) built
from `v` with every `v i ≤ 2^(LEAF_BITSIZE-1)`, `find(t)` returns the number
of prefix sums `≤ t` minus one in wrapping `size_t` arithmetic — that is, the
LARGEST index `j` with `S[j] ≤ t` (`SIZE_MAX` when `t < v 0`), not the
smallest index with `S[j] > t`. -/
theorem claim_C1 {LB N : Nat} {v : Nat → Nat} (hLB : 1 ≤ LB)
    (hv : ∀ i, i < N → v i ≤ 2 ^ (LB - 1)) (h64 : LB + levels N ≤ 65)
    (hperf : N + 1 = 2 ^ levels N) (t : Nat) :
    find LB N (byteTree LB N v) t =
      sub1_64 (Nat.findGreatest (fun n => psum v n ≤ t) N) :=
  find_perfect hLB hv h64 hperf t

/-- C1, witness: the amended claim applied at `LB = 7`, `N = 15`, the
all-ones input and `t = 3`. -/
theorem claim_C1_witness :
    (1 ≤ 7 ∧ 7 + levels 15 ≤ 65 ∧ 15 + 1 = 2 ^ levels 15) ∧
    find 7 15 (byteTree 7 15 vOnes) 3 =
      sub1_64 (Nat.findGreatest (fun n => psum vOnes n ≤ 3) 15) :=
  ⟨⟨by decide, by decide, by decide⟩,
    claim_C1 (by decide) (fun i _ => by unfold vOnes; decide) (by decide)
      (by decide) 3⟩

/-- C1, counterexample: on the all-ones input of size 15 the claim predicts
`find 1 = min 1 14 = 1` (the smallest `j` with `S[j] > 1`), but the code
returns 0. -/
theorem claim_C1_counterexample :
    find 7 15 (byteTree 7 15 vOnes) 1 = 0 ∧ Nat.min 1 14 = 1 := by
  constructor
  · rw [byteTree_eq_spec (by decide) (fun i _ => by unfold vOnes; decide)
      (by decide)]
    decide
  · decide

/-- C2 (confirmed): right after the constructor runs on `v`, `get i` returns
the prefix sum `v 0 + … + v i` for every `i < N` (for inputs within the
per-leaf bound and a tree shallow enough for 64-bit nodes). -/
theorem claim_C2 {LB N : Nat} {v : Nat → Nat} (hLB : 1 ≤ LB)
    (hv : ∀ i, i < N → v i ≤ 2 ^ (LB - 1)) (h64 : LB + levels N ≤ 65)
    {i : Nat} (hi : i < N) :
    get LB N (byteTree LB N v) i = psum v (i + 1) :=
  get_correct hLB hv h64 hi

/-- C2, witness: the round trip at `LB = 7`, `N = 3`, the constant-3 input,
`i = 2`. -/
theorem claim_C2_witness :
    (1 ≤ 7 ∧ 7 + levels 3 ≤ 65 ∧ 2 < 3) ∧
    get 7 3 (byteTree 7 3 vConst3) 2 = psum vConst3 3 :=
  ⟨⟨by decide, by decide, by decide⟩,
    claim_C2 (by decide) (fun i _ => by unfold vConst3; decide) (by decide)
      (by decide)⟩

/-- C3 (code bug): the byte-packed variant does not answer `find` identically
to the (spec-modelled) naive variant: for `N = 21`, `LEAF_BITSIZE = 7` and
the input `vC3` (bounded by 64), at `t = 512` the byte-packed tree returns
20 while the naive tree returns 19 — the walk reaches a candidate node past
the end of level 0 whose `byte_pos` is below `level[levels]`, so the guard
does not fire and the probe reads other nodes' bytes. -/
theorem claim_C3 :
    find 7 21 (byteTree 7 21 vC3) 512 = 20 ∧ naiveFind 21 vC3 512 = 19 := by
  constructor
  · rw [byteTree_eq_spec (by decide)
      (fun i hi => by interval_cases i <;> decide) (by decide)]
    decide
  · decide

/-- C4 (confirmed): `set i inc` touches at most `levels N` nodes — those on
the Fenwick path of `i` — and, as long as `inc` keeps every path node inside
its per-level byte width, every byte outside the path nodes' regions is
unchanged, even though each store is an unaligned 64-bit read-modify-write. -/
theorem claim_C4 {LB N : Nat} {m : Nat → Nat} {i : Nat} {inc : Int}
    (hb : bytesLt m) (h64 : LB + levels N ≤ 65)
    (hfit : ∀ j ∈ path N i, fitAt LB N inc m j) :
    (path N i).length ≤ levels N ∧
      ∀ q, (∀ j ∈ path N i, ¬inRegion LB N (heightOf j) (levelIdxOf j) q) →
        set LB N m i inc q = m q :=
  ⟨path_length N i, fun q hq => set_frame hb h64 hfit q hq⟩

/-- C4, witness: the frame property applied at `LB = 7`, `N = 3`, the
constructed buffer of the constant-3 input, `i = 0`, `inc = 1`. -/
theorem claim_C4_witness :
    (7 + levels 3 ≤ 65 ∧
      (∀ j ∈ path 3 0, fitAt 7 3 1 (byteSpec 7 3 vConst3) j)) ∧
    ((path 3 0).length ≤ levels 3 ∧
      ∀ q, (∀ j ∈ path 3 0, ¬inRegion 7 3 (heightOf j) (levelIdxOf j) q) →
        set 7 3 (byteSpec 7 3 vConst3) 0 1 q = byteSpec 7 3 vConst3 q) :=
  ⟨⟨by decide, by decide⟩,
    claim_C4 (bytesLt_specUpTo 7 3 vConst3 (levels 3) 0) (by decide)
      (by decide)⟩

/-- C5 (amended): complement duality holds for perfect sizes
(`N + 1 = 2^levels`): `find_complement t` on the tree of `v` equals `find t`
on the tree of the complemented input `v2 i = 2^(LEAF_BITSIZE-1) - v i`. -/
theorem claim_C5 {LB N : Nat} {v v2 : Nat → Nat} (hLB : 1 ≤ LB)
    (hv : ∀ i, i < N → v i ≤ 2 ^ (LB - 1))
    (hv2 : ∀ i, i < N → v2 i = 2 ^ (LB - 1) - v i)
    (h64 : LB + levels N ≤ 65) (hperf : N + 1 = 2 ^ levels N) (t : Nat) :
    find_complement LB N (byteTree LB N v) t =
      find LB N (byteTree LB N v2) t :=
  find_complement_perfect hLB hv hv2 h64 hperf t

/-- C5, witness: the duality applied at `LB = 7`, `N = 15`, the constant-2
input and its complement (constant 62), `t = 10`. -/
theorem claim_C5_witness :
    (1 ≤ 7 ∧ 7 + levels 15 ≤ 65 ∧ 15 + 1 = 2 ^ levels 15) ∧
    find_complement 7 15 (byteTree 7 15 vConst2) 10 =
      find 7 15 (byteTree 7 15 vConst62) 10 :=
  ⟨⟨by decide, by decide, by decide⟩,
    claim_C5 (by decide) (fun i _ => by unfold vConst2; decide)
      (fun i _ => by unfold vConst62 vConst2; decide) (by decide) (by decide)
      10⟩

/-- C5, counterexample: for the non-perfect size `N = 21` the duality fails:
on `vC5` (eight 64s then 0s, `LEAF_BITSIZE = 7`) at `t = 512`,
`find_complement` returns 20 but `find` on the complemented input returns
15. -/
theorem claim_C5_counterexample :
    find_complement 7 21 (byteTree 7 21 vC5) 512 = 20 ∧
      find 7 21 (byteTree 7 21 vC5c) 512 = 15 := by
  constructor
  · rw [byteTree_eq_spec (by decide)
      (fun i hi => by interval_cases i <;> decide) (by decide)]
    decide
  · rw [byteTree_eq_spec (by decide)
      (fun i hi => by interval_cases i <;> decide) (by decide)]
    decide

/-- C6 (code bug): the `+3` trailing slack does not cover the unaligned
8-byte accesses: already for `LEAF_BITSIZE = 7`, `N = 1` the tree allocates
`level[levels] + 3 = 4` bytes, yet the node of level 0, index 0 — a node
that exists (`cnt 1 0 > 0`) and is read by `get 0` and written by `set 0` —
is accessed with a full 8-byte load/store at byte position 0, which extends
4 bytes past the allocation. -/
theorem claim_C6 :
    0 < cnt 1 0 ∧ allocBytes 7 1 < nodePos 7 1 0 0 + 8 := by decide

/-- C7 (code bug): the `DArray`-move constructor initialises `tree` from
`_bitvector` before `_bitvector` is move-initialised from the argument, so
the Fenwick tree is built from uninitialised memory: with `WORDS = 1`,
`length = 1`, junk contents 0 and actual bitvector word 1, the tree's 0th
input is 0 while the invariant demands `popcount 1 = 1` (which the in-order
`build_fenwick` computes). -/
theorem claim_C7 :
    moveCtorSeq 1 1 bZero 0 = 0 ∧ build_fenwick_seq 1 1 vOnes 0 = 1 := by
  decide

end dyn

namespace dyn

/-- C8 (amended): with a Fenwick view consistent with the bit array,
`rank p` returns the number of set bits in positions `[0, p)` for every
`p ≤ 64·length`; but its word accesses are all in bounds only for
`p < 64·length` — at `p = 64·length` the final access reads the word one
past the end (its contribution is masked to zero). -/
theorem claim_C8 {W len : Nat} {tg B : Nat → Nat} (hB : ∀ i, B i < 2 ^ 64)
    (hcons : ∀ j, (j + 1) * W ≤ len →
      tg j = rangeSum (fun i => popcount (B i)) 0 ((j + 1) * W))
    {p : Nat} (hp : p ≤ 64 * len) :
    lineRank W tg B p = bitRank B p ∧
      (p < 64 * len → ∀ a ∈ rankAccesses W p, a < len) :=
  ⟨lineRank_correct hB hcons hp, fun hlt => rankAccesses_lt hlt⟩

/-- C8, witness: the amended claim applied at `WORDS = 1`, `length = 1`, the
constant-5 word array with its consistent Fenwick view, `p = 7`. -/
theorem claim_C8_witness :
    ((∀ i : Nat, wB8 i < 2 ^ 64) ∧ 7 ≤ 64 * 1) ∧
    (lineRank 1 tgB8 wB8 7 = bitRank wB8 7 ∧
      (7 < 64 * 1 → ∀ a ∈ rankAccesses 1 7, a < 1)) :=
  ⟨⟨fun i => by unfold wB8; decide, by decide⟩,
    claim_C8 (fun i => by unfold wB8; decide) (fun j _ => rfl) (by decide)⟩

/-- C8, counterexample: at `WORDS = 1`, `length = 1` and the boundary
position `p = 64·length = 64` — allowed by the claim — the word index of the
final `_bitvector` access is `p / 64 = 1`, which is not `< length = 1`. -/
theorem claim_C8_counterexample :
    rankAccesses 1 64 = [1] ∧ ¬(1 < 1) := by decide

/-- C9 (amended): when `k` is at least the residual ones the tree walk
leaves, the `LEAF_MAXVAL` variant's `select` returns `SIZE_MAX = 2^64 - 1`;
the `LEAF_BITSIZE` variant instead falls through its unguarded word loop and
returns `(idx+1)·WORDS·64` — not `SIZE_MAX` and not distinguishable as the
claimed sentinel. -/
theorem claim_C9 {W len : Nat} {tfp : Nat → Nat × Nat} {tf tg B : Nat → Nat}
    {k : Nat}
    (hr1 : rangeSum (fun t => popcount (B t)) (((tfp k).1 + 1) * W) len ≤
      (tfp k).2)
    (hr2 : rangeSum (fun t => popcount (B t)) ((tf k + 1) * W)
        ((tf k + 1) * W + W) ≤
      u64sub k (if tf k + 1 = 0 then 0 else tg (tf k + 1 - 1))) :
    selectMaxval W len tfp B k = U64 - 1 ∧
      selectBitsize W tf tg B k = (tf k + 1 + 1) * W * 64 :=
  ⟨selectMaxval_sentinel hr1, selectBitsize_fallthrough hr2⟩

/-- C9, witness: both select bodies applied at `WORDS = 1`, `length = 1`, the
all-zero bit array, `k = 0`, with abstract tree answers `(0, 0)`, `0`, `0`. -/
theorem claim_C9_witness :
    (rangeSum (fun t => popcount (bZero t)) (((tfpW 0).1 + 1) * 1) 1 ≤
        (tfpW 0).2 ∧
      rangeSum (fun t => popcount (bZero t)) ((tfW 0 + 1) * 1)
          ((tfW 0 + 1) * 1 + 1) ≤
        u64sub 0 (if tfW 0 + 1 = 0 then 0 else tgW (tfW 0 + 1 - 1))) ∧
    (selectMaxval 1 1 tfpW bZero 0 = U64 - 1 ∧
      selectBitsize 1 tfW tgW bZero 0 = (tfW 0 + 1 + 1) * 1 * 64) :=
  ⟨⟨by decide, by decide⟩, claim_C9 (by decide) (by decide)⟩

/-- C9, counterexample: the `LEAF_BITSIZE` variant instantiated with its real
`ByteFenwickTree<7>` on a one-word all-zero bit array (`WORDS = 1`): every
`k ≥ 0 =` total ones, and `select 0` returns 128, not the sentinel
`2^64 - 1`. -/
theorem claim_C9_counterexample :
    selectBitsize 1 tfC9 tgC9 bZero 0 = 128 ∧ ¬(128 = U64 - 1) := by decide

/-- C10 (confirmed): when `t < v 0` the `find` walk turns left at every
level (every left-spine node stores a range sum `≥ v 0 > t`), finishes with
`node = 0`, and returns `node - 1` in unsigned 64-bit arithmetic:
`SIZE_MAX = 2^64 - 1`. -/
theorem claim_C10 {LB N : Nat} {v : Nat → Nat} (hLB : 1 ≤ LB)
    (hv : ∀ i, i < N → v i ≤ 2 ^ (LB - 1)) (h64 : LB + levels N ≤ 65)
    {t : Nat} (ht : t < v 0) :
    find LB N (byteTree LB N v) t = U64 - 1 :=
  find_left hLB hv h64 ht

/-- C10, witness: `find 4` on the constant-5 input of size 3 returns
`2^64 - 1`. -/
theorem claim_C10_witness :
    (1 ≤ 7 ∧ 7 + levels 3 ≤ 65 ∧ 4 < vConst5 0) ∧
    find 7 3 (byteTree 7 3 vConst5) 4 = U64 - 1 :=
  ⟨⟨by decide, by decide, by decide⟩,
    claim_C10 (by decide) (fun i _ => by unfold vConst5; decide) (by decide)
      (by decide)⟩

end dyn
